import Mathlib

/-!
Shallow embedding of the image-matting pipeline of
`src/services/segmentationService.ts` (repository `block/voice-pixels`),
together with theorems settling the frozen claims about it.

The pipeline stages embedded below:
* `getContrastingColor` : the color sampler (luminance heuristic with fallbacks);
* `chromaPass`          : pass 1, distance-based chroma keying with a feather band;
* `erode` / `dilate`    : passes 2 and 3, radius-1 morphology on the alpha channel;
* `regionFilterRun`     : pass 4, flood-fill connected-component filtering;
* `removeBackgroundColor` : the whole background-removal routine.

JavaScript `number` arithmetic is modelled by exact arithmetic (`ℚ` in the
definitions, `ℝ` in statements about Euclidean distances); the store of a
feathered alpha into the 8-bit `Uint8ClampedArray` is modelled by
round-half-to-even (`featherByte`).
-/

namespace VoicePixels

/-- One RGBA pixel of an `ImageData` buffer; each channel is an 8-bit value
in the source, modelled as `ℕ`. -/
structure Pixel where
  r : ℕ
  g : ℕ
  b : ℕ
  a : ℕ
deriving DecidableEq, Repr

/-- The background key color parsed from the hex string (`bgColor` in the
source): an RGB triple without alpha. -/
structure RGB where
  r : ℕ
  g : ℕ
  b : ℕ
deriving DecidableEq, Repr

/-- A raster image: width, height and the pixel buffer (`ImageData`). -/
structure Img where
  w : ℕ
  h : ℕ
  px : List Pixel
deriving DecidableEq, Repr

/-- Reading pixel `i` of the buffer; out-of-range reads yield the zero pixel
(an `ImageData` buffer is zero-initialized). -/
def Img.pixelAt (img : Img) (i : ℕ) : Pixel :=
  img.px.getD i ⟨0, 0, 0, 0⟩

/-- The alpha channel at buffer index `i` (`data[i * 4 + 3]` in the source). -/
def Img.alphaAt (img : Img) (i : ℕ) : ℕ :=
  (img.pixelAt i).a

/-- The three color channels at buffer index `i`. -/
def Img.rgbAt (img : Img) (i : ℕ) : ℕ × ℕ × ℕ :=
  ((img.pixelAt i).r, (img.pixelAt i).g, (img.pixelAt i).b)

/-! ### Chroma keying (pass 1 of `removeBackgroundColor`) -/

/-- The squared Euclidean distance between a pixel's RGB and the key color,
`(r - bg.r)^2 + (g - bg.g)^2 + (b - bg.b)^2` from the source (the source takes
the square root; all comparisons below are phrased on the square). -/
def distSq (p : Pixel) (bg : RGB) : ℕ :=
  ((p.r : ℤ) - bg.r).natAbs ^ 2 + ((p.g : ℤ) - bg.g).natAbs ^ 2 +
    ((p.b : ℤ) - bg.b).natAbs ^ 2

/-- Decides `c * t / 1700 ≤ Real.sqrt n` for an integer `c`, by integer
arithmetic on the numerator and denominator of `t` (rational addition and
multiplication do not reduce definitionally, integer arithmetic does). -/
def ratLeSqrt (c : ℤ) (t : ℚ) (n : ℕ) : Bool :=
  decide (c * t.num ≤ 0) ||
    decide (c ^ 2 * t.num ^ 2 ≤ (n : ℤ) * 1700 ^ 2 * t.den ^ 2)

/-- Whether `c * t / 1700 = Real.sqrt n`, decided by integer arithmetic. -/
def ratEqSqrt (c : ℤ) (t : ℚ) (n : ℕ) : Prop :=
  0 ≤ c * t.num ∧ c ^ 2 * t.num ^ 2 = (n : ℤ) * 1700 ^ 2 * t.den ^ 2

instance (c : ℤ) (t : ℚ) (n : ℕ) : Decidable (ratEqSqrt c t n) := by
  unfold ratEqSqrt; infer_instance

/-- The greatest `m ≤ 256` with `m ≤ f + 1/2`, where
`f = ((sqrt n - t) / (t * 0.3)) * 255 = 850 * sqrt n / t - 850` is the feather
value of the source.  The test `m ≤ f + 1/2` is equivalent to
`(m + 1699/2) * t / 850 ≤ sqrt n`, i.e. `((2*m + 1699) * t) / 1700 ≤ sqrt n`. -/
def featherFloor (n : ℕ) (t : ℚ) : ℕ :=
  Nat.findGreatest (fun m => ratLeSqrt (2 * (m : ℤ) + 1699) t n = true) 256

/-- The byte stored by `imageData.data[i+3] = ... alpha`: the feather value
`((sqrt n - t) / (t * 0.3)) * 255` rounded half-to-even, as a
`Uint8ClampedArray` store does.  `featherFloor` is `⌊f + 1/2⌋`; the correction
subtracts one exactly when `f` is half-way between two integers and the lower
one is even. -/
def featherByte (n : ℕ) (t : ℚ) : ℕ :=
  let m := featherFloor n t
  if ratEqSqrt (2 * (m : ℤ) + 1699) t n ∧ m % 2 = 1 then m - 1 else m

/-- Pass 1 of the source, per pixel: full removal when the distance is below
`tolerance`, the feathered minimum when it is below `tolerance * 1.3`, and no
write otherwise.  The comparisons `distance < tolerance` and
`distance < tolerance * 1.3` are phrased on squares, scaled by the
denominator of `t` (`n * den^2 < num^2` says `n < t^2`); the guard
`0 < t.num` restates that a nonnegative distance is never below a
nonpositive bound. -/
def chromaPixel (bg : RGB) (t : ℚ) (p : Pixel) : Pixel :=
  let n := distSq p bg
  if 0 < t.num ∧ (n : ℤ) * t.den ^ 2 < t.num ^ 2 then
    { p with a := 0 }
  else if 0 < t.num ∧ (n : ℤ) * 100 * t.den ^ 2 < t.num ^ 2 * 169 then
    { p with a := min p.a (featherByte n t) }
  else p

/-- Pass 1 of `removeBackgroundColor`: the chroma-key loop over the buffer. -/
def chromaPass (img : Img) (bg : RGB) (t : ℚ) : Img :=
  { img with px := img.px.map (chromaPixel bg t) }

/-! ### Morphology (`erode` and `dilate`) -/

/-- The neighborhood offsets `-radius ≤ d ≤ radius` of the source loops. -/
def offsets (radius : ℕ) : List ℤ :=
  (List.range (2 * radius + 1)).map (fun k => (k : ℤ) - radius)

/-- The source's bounds test `ny >= 0 && ny < height && nx >= 0 && nx < width`. -/
def inBounds (w h : ℕ) (nx ny : ℤ) : Bool :=
  decide (0 ≤ nx) && decide (nx < (w : ℤ)) && decide (0 ≤ ny) && decide (ny < (h : ℤ))

/-- The erosion test: some in-bounds neighbor within `radius` has alpha 0. -/
def hasTransparentNeighbor (img : Img) (x y radius : ℕ) : Bool :=
  (offsets radius).any fun dy =>
    (offsets radius).any fun dx =>
      let ny := (y : ℤ) + dy
      let nx := (x : ℤ) + dx
      inBounds img.w img.h nx ny &&
        decide (img.alphaAt (ny.toNat * img.w + nx.toNat) = 0)

/-- One output pixel of `erode`: RGB copied, alpha forced to 0 when some
neighbor is transparent, kept otherwise. -/
def erodePixel (img : Img) (x y radius : ℕ) : Pixel :=
  let p := img.pixelAt (y * img.w + x)
  if hasTransparentNeighbor img x y radius then { p with a := 0 } else p

/-- Morphological erosion: a fresh output buffer whose pixel `(x, y)` is
`erodePixel`; the loops over `y < h`, `x < w` enumerate indices `0..w*h-1`. -/
def erode (img : Img) (radius : ℕ) : Img :=
  { img with
    px := (List.range (img.w * img.h)).map
      (fun i => erodePixel img (i % img.w) (i / img.w) radius) }

/-- The dilation value: the maximum alpha over the pixel and its in-bounds
neighbors within `radius` (the source starts `maxAlpha` at the pixel's own
alpha). -/
def dilateMax (img : Img) (x y radius : ℕ) : ℕ :=
  (offsets radius).foldl
    (fun acc dy =>
      (offsets radius).foldl
        (fun acc2 dx =>
          let ny := (y : ℤ) + dy
          let nx := (x : ℤ) + dx
          if inBounds img.w img.h nx ny then
            max acc2 (img.alphaAt (ny.toNat * img.w + nx.toNat))
          else acc2)
        acc)
    (img.alphaAt (y * img.w + x))

/-- One output pixel of `dilate`: RGB copied, alpha replaced by `dilateMax`. -/
def dilatePixel (img : Img) (x y radius : ℕ) : Pixel :=
  let p := img.pixelAt (y * img.w + x)
  { p with a := dilateMax img x y radius }

/-- Morphological dilation over a fresh output buffer. -/
def dilate (img : Img) (radius : ℕ) : Img :=
  { img with
    px := (List.range (img.w * img.h)).map
      (fun i => dilatePixel img (i % img.w) (i / img.w) radius) }

/-! ### Region filtering (pass 4 of `removeBackgroundColor`) -/

/-- The 4-connected neighbors pushed by `floodFill` for index `idx`, with the
source's guards `x > 0`, `x < width - 1`, `y > 0`, `y < height - 1` where
`x = idx % width` and `y = ⌊idx / width⌋`; listed in the source's push order
left, right, up, down. -/
def pushNeighbors (w h idx : ℕ) : List ℕ :=
  (if 0 < idx % w then [idx - 1] else []) ++
    (if idx % w < w - 1 then [idx + 1] else []) ++
      (if 0 < idx / w then [idx - w] else []) ++
        (if idx / w < h - 1 then [idx + w] else [])

/-- The `while (stack.length > 0)` loop of `floodFill`.  The stack's top is the
head of the list, so the four `stack.push` calls prepend the reversed neighbor
list.  `fuel` bounds the iteration count of the while loop; every call below
supplies enough fuel for the loop to drain the stack. -/
def floodLoop (img : Img) : ℕ → List ℕ → Finset ℕ → List ℕ → Finset ℕ × List ℕ
  | 0, _, visited, region => (visited, region)
  | _ + 1, [], visited, region => (visited, region)
  | fuel + 1, idx :: rest, visited, region =>
    if idx ∈ visited then floodLoop img fuel rest visited region
    else
      let visited' := insert idx visited
      if img.alphaAt idx = 0 then floodLoop img fuel rest visited' region
      else
        floodLoop img fuel ((pushNeighbors img.w img.h idx).reverse ++ rest)
          visited' (region ++ [idx])

/-- Writing alpha 0 to every buffer index recorded in `region` (the
`for (const pixelIdx of region)` loop). -/
def zeroRegion (img : Img) (region : List ℕ) : Img :=
  { img with
    px := img.px.mapIdx (fun i p => if i ∈ region then { p with a := 0 } else p) }

/-- One iteration of the seed scan: on an unvisited pixel with positive alpha,
run `floodFill` and zero the collected region when its size is below
`minRegionSize`. -/
def regionFilterStep (minRegionSize : ℕ) (st : Img × Finset ℕ) (i : ℕ) :
    Img × Finset ℕ :=
  if i ∉ st.2 ∧ 0 < st.1.alphaAt i then
    let res := floodLoop st.1 (5 * (st.1.w * st.1.h) + 5) [i] st.2 []
    if res.2.length < minRegionSize then (zeroRegion st.1 res.2, res.1)
    else (st.1, res.1)
  else st

/-- Pass 4 run over an arbitrary seed scan order. -/
def regionFilterRun (img : Img) (order : List ℕ) (minRegionSize : ℕ) : Img :=
  (order.foldl (regionFilterStep minRegionSize) (img, ∅)).1

/-- Pass 4 as the source runs it: seeds scanned in raster order
`0 ≤ i < width * height`. -/
def regionFilter (img : Img) (minRegionSize : ℕ) : Img :=
  regionFilterRun img (List.range (img.w * img.h)) minRegionSize

/-! ### The maximal 4-connected opaque region through a pixel -/

/-- One closure step: add every in-bounds 4-neighbor with positive alpha of a
member of `S`. -/
def expandStep (img : Img) (S : Finset ℕ) : Finset ℕ :=
  S ∪ S.biUnion fun p =>
    ((pushNeighbors img.w img.h p).filter fun q => 0 < img.alphaAt q).toFinset

/-- The maximal 4-connected region of pixels with positive alpha containing
`p` (empty when `p` is transparent): `w * h` closure steps reach the fixpoint
of `expandStep`. -/
def comp (img : Img) (p : ℕ) : Finset ℕ :=
  if 0 < img.alphaAt p then (expandStep img)^[img.w * img.h] {p} else ∅

/-! ### The full background-removal routine and the color sampler -/

/-- The value of one hexadecimal digit as `parseInt(-, 16)` reads it. -/
def hexDigit (c : Char) : ℕ :=
  if '0' ≤ c ∧ c ≤ '9' then c.toNat - 48
  else if 'a' ≤ c ∧ c ≤ 'f' then c.toNat - 87
  else if 'A' ≤ c ∧ c ≤ 'F' then c.toNat - 55
  else 0

/-- `parseInt(backgroundColor.slice(i, i+2), 16)`: the two-digit hex value at
character positions `i` and `i + 1`. -/
def hexPairAt (s : String) (i : ℕ) : ℕ :=
  16 * hexDigit (s.toList.getD i '0') + hexDigit (s.toList.getD (i + 1) '0')

/-- Parsing the `#rrggbb` background color string into `bgColor`. -/
def parseHexColor (s : String) : RGB :=
  { r := hexPairAt s 1, g := hexPairAt s 3, b := hexPairAt s 5 }

/-- `removeBackgroundColor`: chroma key, two erosions, two dilations, then the
region filter with the local constant `minRegionSize = 50`.  The caller-facing
configuration is the image, the background color string and `tolerance`
(default 50); the region-size threshold is not a parameter. -/
def removeBackgroundColor (img : Img) (backgroundColor : String)
    (tolerance : ℚ := 50) : Img :=
  let bgColor := parseHexColor backgroundColor
  let keyed := chromaPass img bgColor tolerance
  let eroded := erode (erode keyed 1) 1
  let dilated := dilate (dilate eroded 1) 1
  let minRegionSize := 50
  regionFilter dilated minRegionSize

/-- The ways the sampling in `getContrastingColor` can turn out: the image
fails to load (`img.onerror`), the 2d context is unavailable, or the 100×100
downsample is read successfully. -/
inductive SampleOutcome where
  | loadError : SampleOutcome
  | noContext : SampleOutcome
  | sampled : List Pixel → SampleOutcome

/-- The sampler's average luminance: `(r + g + b) / 3` summed over the read
buffer, divided by `size * size` with `size = 100`. -/
def avgBrightness (sample : List Pixel) : ℚ :=
  (sample.foldl (fun acc p => acc + ((p.r : ℚ) + p.g + p.b) / 3) 0) / (100 * 100)

/-- `getContrastingColor`: green on load failure, green when no 2d context is
available, otherwise magenta for bright images and green for dark ones.  The
promise only ever resolves, so every outcome yields a color. -/
def getContrastingColor : SampleOutcome → String
  | .loadError => "#00FF00"
  | .noContext => "#00FF00"
  | .sampled data =>
      if avgBrightness data > 128 then "#FF00FF" else "#00FF00"

/-! ### Proof-side notions for the region filter -/

/-- Paths through 4-neighbor steps that stay inside the pixel set `C` and
avoid the visited set `V`: the completeness invariant of the flood-fill
worklist. -/
inductive CPath (w h : ℕ) (C V : Finset ℕ) : ℕ → ℕ → Prop
  | refl (a : ℕ) (ha : a ∈ C) (hav : a ∉ V) : CPath w h C V a a
  | tail {a b c : ℕ} (hp : CPath w h C V a b) (hadj : c ∈ pushNeighbors w h b)
      (hc : c ∈ C) (hcv : c ∉ V) : CPath w h C V a c

/-- The invariant carried through the seed scan of the region filter: the
image keeps its dimensions and RGB data; every component met so far is wholly
visited; and a pixel's current alpha is 0 exactly when its original alpha was
positive, its component has been processed, and that component is smaller
than `k` — otherwise it is the original alpha. -/
def FilterInv (img0 : Img) (k : ℕ) (st : Img × Finset ℕ) : Prop :=
  st.1.w = img0.w ∧ st.1.h = img0.h ∧ st.1.px.length = img0.px.length ∧
    (∀ i, (st.1.pixelAt i).r = (img0.pixelAt i).r ∧
      (st.1.pixelAt i).g = (img0.pixelAt i).g ∧
      (st.1.pixelAt i).b = (img0.pixelAt i).b) ∧
    (∀ i ∈ st.2, ∀ j ∈ comp img0 i, j ∈ st.2) ∧
    (∀ i, st.1.alphaAt i =
      if 0 < img0.alphaAt i ∧ i ∈ st.2 ∧ (comp img0 i).card < k then 0
      else img0.alphaAt i)

/-! ### Concrete images used as witnesses and counterexamples -/

/-- A one-pixel image used to instantiate universally quantified theorems. -/
def tinyImg : Img :=
  ⟨1, 1, [⟨10, 20, 30, 40⟩]⟩

/-- The 10×10 image of the end-to-end scenario: all green `(0,255,0)` with a
2×2 red `(255,0,0)` square at the center (buffer indices 44, 45, 54, 55). -/
def e2eImg : Img :=
  ⟨10, 10, (List.range 100).map fun i =>
    if i = 44 ∨ i = 45 ∨ i = 54 ∨ i = 55 then ⟨255, 0, 0, 255⟩
    else ⟨0, 255, 0, 255⟩⟩

/-- The end-to-end pipeline of the scenario: chroma key against the green key
with tolerance 50, two erosions, two dilations, region filter with
`minRegionSize = 1`. -/
def e2eOut : Img :=
  regionFilter
    (dilate (dilate (erode (erode (chromaPass e2eImg ⟨0, 255, 0⟩ 50) 1) 1) 1) 1) 1

/-- A 9×9 image, all green with a red 5×5 block on rows and columns 2–6: the
block survives two erosions (its center pixel has no transparent neighbor)
and is restored to 25 pixels by the two dilations. -/
def blockImg : Img :=
  ⟨9, 9, (List.range 81).map fun i =>
    if 2 ≤ i % 9 ∧ i % 9 ≤ 6 ∧ 2 ≤ i / 9 ∧ i / 9 ≤ 6 then ⟨255, 0, 0, 255⟩
    else ⟨0, 255, 0, 255⟩⟩

/-- `blockImg` after chroma keying and the four morphology passes: a 5×5
opaque block of 25 pixels. -/
def blockMorphed : Img :=
  dilate (dilate (erode (erode (chromaPass blockImg (parseHexColor "#00FF00") 50) 1) 1) 1) 1

/-- A 3×3 image with a 2-pixel opaque region (indices 4 and 5) on a
transparent background, used to instantiate the region-filter theorems. -/
def c5Img : Img :=
  ⟨3, 3, (List.range 9).map fun i =>
    if i = 4 ∨ i = 5 then ⟨255, 0, 0, 255⟩ else ⟨0, 255, 0, 0⟩⟩

/-! ### Basic buffer lemmas -/

lemma getD_map_range {α : Type} (f : ℕ → α) {n i : ℕ} (h : i < n) (d : α) :
    ((List.range n).map f).getD i d = f i := by
  rw [List.getD_eq_getElem?_getD, List.getElem?_map, List.getElem?_range h]
  rfl

lemma self_eq_div_mul_add_mod (i w : ℕ) : i / w * w + i % w = i := by
  rw [Nat.mul_comm]
  exact Nat.div_add_mod i w

lemma alphaAt_erode (img : Img) (radius : ℕ) {i : ℕ} (h : i < img.w * img.h) :
    (erode img radius).alphaAt i =
      (erodePixel img (i % img.w) (i / img.w) radius).a := by
  unfold erode Img.alphaAt Img.pixelAt
  rw [getD_map_range _ h]

lemma alphaAt_dilate (img : Img) (radius : ℕ) {i : ℕ} (h : i < img.w * img.h) :
    (dilate img radius).alphaAt i = dilateMax img (i % img.w) (i / img.w) radius := by
  unfold dilate Img.alphaAt Img.pixelAt
  rw [getD_map_range _ h]
  rfl

/-! ### Chroma keying: per-pixel facts -/

lemma chromaPixel_r (bg : RGB) (t : ℚ) (p : Pixel) : (chromaPixel bg t p).r = p.r := by
  simp only [chromaPixel]
  split_ifs <;> rfl

lemma chromaPixel_g (bg : RGB) (t : ℚ) (p : Pixel) : (chromaPixel bg t p).g = p.g := by
  simp only [chromaPixel]
  split_ifs <;> rfl

lemma chromaPixel_b (bg : RGB) (t : ℚ) (p : Pixel) : (chromaPixel bg t p).b = p.b := by
  simp only [chromaPixel]
  split_ifs <;> rfl

lemma chromaPixel_a_le (bg : RGB) (t : ℚ) (p : Pixel) :
    (chromaPixel bg t p).a ≤ p.a := by
  simp only [chromaPixel]
  split_ifs <;> simp

lemma distSq_chromaPixel (bg : RGB) (t : ℚ) (p : Pixel) :
    distSq (chromaPixel bg t p) bg = distSq p bg := by
  unfold distSq
  rw [chromaPixel_r, chromaPixel_g, chromaPixel_b]

lemma chromaPixel_idem (bg : RGB) (t : ℚ) (p : Pixel) :
    chromaPixel bg t (chromaPixel bg t p) = chromaPixel bg t p := by
  have hd := distSq_chromaPixel bg t p
  by_cases h1 : 0 < t.num ∧ ((distSq p bg : ℤ)) * t.den ^ 2 < t.num ^ 2
  · have houter : chromaPixel bg t p = { p with a := 0 } := by
      unfold chromaPixel
      rw [if_pos h1]
    rw [houter]
    unfold chromaPixel
    have : distSq { p with a := 0 } bg = distSq p bg := by unfold distSq; rfl
    rw [this, if_pos h1]
  · by_cases h2 : 0 < t.num ∧ ((distSq p bg : ℤ)) * 100 * t.den ^ 2 < t.num ^ 2 * 169
    · have houter : chromaPixel bg t p = { p with a := min p.a (featherByte (distSq p bg) t) } := by
        unfold chromaPixel
        rw [if_neg h1, if_pos h2]
      rw [houter]
      unfold chromaPixel
      have hdd : distSq { p with a := min p.a (featherByte (distSq p bg) t) } bg = distSq p bg := by
        unfold distSq; rfl
      rw [hdd, if_neg h1, if_pos h2]
      congr 1
      rw [min_assoc, min_self]
    · have houter : chromaPixel bg t p = p := by
        unfold chromaPixel
        rw [if_neg h1, if_neg h2]
      rw [houter]
      unfold chromaPixel
      rw [if_neg h1, if_neg h2]

/-- C7 stage-level form: the once-keyed buffer is a fixed point of the keying
pass. -/
lemma chromaPass_idem (img : Img) (bg : RGB) (t : ℚ) :
    chromaPass (chromaPass img bg t) bg t = chromaPass img bg t := by
  unfold chromaPass
  simp only
  congr 1
  rw [List.map_map]
  exact List.map_congr_left fun p _ => chromaPixel_idem bg t p

lemma alphaAt_chromaPass_le (img : Img) (bg : RGB) (t : ℚ) (i : ℕ) :
    (chromaPass img bg t).alphaAt i ≤ img.alphaAt i := by
  unfold chromaPass Img.alphaAt Img.pixelAt
  by_cases h : i < img.px.length
  · rw [List.getD_eq_getElem?_getD, List.getElem?_map, List.getElem?_eq_getElem h]
    rw [List.getD_eq_getElem?_getD (img.px), List.getElem?_eq_getElem h]
    exact chromaPixel_a_le bg t _
  · rw [List.getD_eq_default _ _ (by simpa using Nat.le_of_not_lt h),
      List.getD_eq_default _ _ (Nat.le_of_not_lt h)]

/-! ### Morphology: per-pixel monotonicity -/

lemma erodePixel_a_le (img : Img) (x y radius : ℕ) :
    (erodePixel img x y radius).a ≤ (img.pixelAt (y * img.w + x)).a := by
  unfold erodePixel
  split <;> simp

lemma le_foldl_of_le {α : Type} {f : ℕ → α → ℕ} (hf : ∀ a x, a ≤ f a x) :
    ∀ (l : List α) (init : ℕ), init ≤ l.foldl f init := by
  intro l
  induction l with
  | nil => intro init; exact le_refl _
  | cons x xs ih => intro init; exact le_trans (hf init x) (ih (f init x))

lemma le_dilateMax (img : Img) (x y radius : ℕ) :
    (img.pixelAt (y * img.w + x)).a ≤ dilateMax img x y radius := by
  unfold dilateMax
  refine le_foldl_of_le (fun a dy => ?_) _ _
  refine le_foldl_of_le (fun a2 dx => ?_) _ _
  dsimp only
  split
  · exact le_max_left _ _
  · exact le_refl _

/-! ### Claim C4: erosion never increases alpha, dilation never decreases it -/

/-- C4: for every image and every pixel of it, one erosion pass leaves the
pixel's alpha at most its pre-pass value, and one dilation pass leaves it at
least its pre-pass value. -/
theorem erosion_dilation_alpha_monotone (img : Img) (i : ℕ) (hi : i < img.w * img.h) :
    (erode img 1).alphaAt i ≤ img.alphaAt i ∧
      img.alphaAt i ≤ (dilate img 1).alphaAt i := by
  constructor
  · rw [alphaAt_erode img 1 hi]
    have h2 := erodePixel_a_le img (i % img.w) (i / img.w) 1
    rw [self_eq_div_mul_add_mod i img.w] at h2
    exact h2
  · rw [alphaAt_dilate img 1 hi]
    have h2 := le_dilateMax img (i % img.w) (i / img.w) 1
    rw [self_eq_div_mul_add_mod i img.w] at h2
    exact h2

/-- Witness for C4 at a concrete one-pixel image. -/
theorem erosion_dilation_alpha_monotone_witness :
    0 < tinyImg.w * tinyImg.h ∧
      ((erode tinyImg 1).alphaAt 0 ≤ tinyImg.alphaAt 0 ∧
        tinyImg.alphaAt 0 ≤ (dilate tinyImg 1).alphaAt 0) :=
  ⟨by decide, erosion_dilation_alpha_monotone tinyImg 0 (by decide)⟩

/-! ### Claim C7: the chroma-key pass is idempotent -/

/-- C7: keying the once-keyed image again with the same key color and
tolerance returns the same image; in particular no pixel's alpha changes. -/
theorem chromaKey_idempotent (img : Img) (bg : RGB) (t : ℚ) :
    chromaPass (chromaPass img bg t) bg t = chromaPass img bg t ∧
      ∀ i, (chromaPass (chromaPass img bg t) bg t).alphaAt i =
        (chromaPass img bg t).alphaAt i :=
  ⟨chromaPass_idem img bg t, fun _ => by rw [chromaPass_idem]⟩

/-! ### Claim C10: the chroma-key pass never increases any alpha -/

/-- C10: for every pixel and key color, with positive tolerance, the keying
pass only ever lowers alpha; an already fully transparent pixel stays
transparent. -/
theorem chromaKey_never_increases_alpha (img : Img) (bg : RGB) (t : ℚ)
    (ht : 0 < t) (i : ℕ) :
    (chromaPass img bg t).alphaAt i ≤ img.alphaAt i ∧
      (img.alphaAt i = 0 → (chromaPass img bg t).alphaAt i = 0) := by
  have h := alphaAt_chromaPass_le img bg t i
  exact ⟨h, fun h0 => Nat.le_zero.mp (h0 ▸ h)⟩

/-- Witness for C10 at a concrete image and tolerance. -/
theorem chromaKey_never_increases_alpha_witness :
    (0 : ℚ) < 50 ∧
      ((chromaPass tinyImg ⟨0, 255, 0⟩ 50).alphaAt 0 ≤ tinyImg.alphaAt 0 ∧
        (tinyImg.alphaAt 0 = 0 → (chromaPass tinyImg ⟨0, 255, 0⟩ 50).alphaAt 0 = 0)) :=
  ⟨by norm_num, chromaKey_never_increases_alpha tinyImg ⟨0, 255, 0⟩ 50 (by norm_num) 0⟩

/-! ### Claim C1: the 10×10 end-to-end scenario -/

set_option maxRecDepth 40000 in
/-- Counterexample to C1 as stated: on the scenario image the four red center
pixels end with alpha 0, not 255 — the first erosion already zeroes each of
them (every pixel of the 2×2 square has a transparent 8-neighbor), and
dilation cannot regrow an all-zero alpha map. -/
theorem endToEnd_red_square_not_kept :
    e2eOut.alphaAt 44 = 0 ∧ e2eOut.alphaAt 45 = 0 ∧
      e2eOut.alphaAt 54 = 0 ∧ e2eOut.alphaAt 55 = 0 := by decide

set_option maxRecDepth 40000 in
/-- C1 amended: on the scenario image the pipeline output's alpha channel is
0 on every pixel — on all green pixels as claimed, but also on the four red
pixels, which the two erosion passes eliminate. -/
theorem endToEnd_output_fully_transparent :
    (e2eOut.px.all fun p => decide (p.a = 0)) = true ∧ e2eOut.px.length = 100 := by
  decide

/-! ### Index arithmetic for 4-neighborhoods -/

lemma mem_pushNeighbors_iff {w h p q : ℕ} :
    q ∈ pushNeighbors w h p ↔
      (q = p - 1 ∧ 0 < p % w) ∨ (q = p + 1 ∧ p % w < w - 1) ∨
        (q = p - w ∧ 0 < p / w) ∨ (q = p + w ∧ p / w < h - 1) := by
  unfold pushNeighbors
  split_ifs <;> simp_all <;> omega

lemma pushNeighbors_length_le (w h p : ℕ) : (pushNeighbors w h p).length ≤ 4 := by
  unfold pushNeighbors
  split_ifs <;> simp

lemma div_lt_of_lt_area {w h p : ℕ} (hp : p < w * h) : p / w < h := by
  rcases Nat.eq_zero_or_pos w with hw | hw
  · subst hw
    simp at hp
  · exact (Nat.div_lt_iff_lt_mul hw).mpr (by rwa [mul_comm] at hp)

lemma pushNeighbors_lt {w h p q : ℕ} (hp : p < w * h) (hq : q ∈ pushNeighbors w h p) :
    q < w * h := by
  rw [mem_pushNeighbors_iff] at hq
  have hdm := Nat.div_add_mod p w
  have hd : p / w < h := div_lt_of_lt_area hp
  have hwpos : 0 < w := by
    rcases Nat.eq_zero_or_pos w with hw | hw
    · subst hw
      simp at hp
    · exact hw
  have hmlt : p % w < w := Nat.mod_lt p hwpos
  obtain ⟨x, hgx⟩ : ∃ x, p % w = x := ⟨_, rfl⟩
  obtain ⟨y, hgy⟩ : ∃ y, p / w = y := ⟨_, rfl⟩
  rw [hgx, hgy] at hq hdm
  rw [hgy] at hd
  rw [hgx] at hmlt
  clear hgx hgy
  rcases hq with ⟨rfl, hg⟩ | ⟨rfl, hg⟩ | ⟨rfl, hg⟩ | ⟨rfl, hg⟩
  · omega
  · have h1 : w * (y + 1) ≤ w * h := Nat.mul_le_mul_left w hd
    have h2 : w * (y + 1) = w * y + w := by ring
    omega
  · omega
  · have hg2 : y + 2 ≤ h := by omega
    have h1 : w * (y + 2) ≤ w * h := Nat.mul_le_mul_left w hg2
    have h2 : w * (y + 2) = w * y + w + w := by ring
    omega

lemma decomp_div {w k r : ℕ} (hr : r < w) : (w * k + r) / w = k := by
  rw [Nat.add_comm, Nat.add_mul_div_left _ _ (by omega : 0 < w),
    Nat.div_eq_of_lt hr]
  omega

lemma decomp_mod {w k r : ℕ} (hr : r < w) : (w * k + r) % w = r := by
  rw [Nat.add_comm, Nat.add_mul_mod_self_left, Nat.mod_eq_of_lt hr]

lemma pushNeighbors_symm {w h p q : ℕ} (hp : p < w * h)
    (hq : q ∈ pushNeighbors w h p) : p ∈ pushNeighbors w h q := by
  have hdm := Nat.div_add_mod p w
  have hdlt : p / w < h := div_lt_of_lt_area hp
  rw [mem_pushNeighbors_iff] at hq
  rw [mem_pushNeighbors_iff]
  have hwpos : 0 < w := by
    rcases Nat.eq_zero_or_pos w with hw | hw
    · subst hw
      simp at hp
    · exact hw
  have hmlt : p % w < w := Nat.mod_lt p hwpos
  obtain ⟨x, hgx⟩ : ∃ x, p % w = x := ⟨_, rfl⟩
  obtain ⟨y, hgy⟩ : ∃ y, p / w = y := ⟨_, rfl⟩
  rw [hgx, hgy] at hq hdm
  rw [hgy] at hdlt
  rw [hgx] at hmlt
  clear hgx hgy
  rcases hq with ⟨rfl, hg⟩ | ⟨rfl, hg⟩ | ⟨rfl, hg⟩ | ⟨rfl, hg⟩
  · -- q = p - 1: p = q + 1, and q % w = x - 1
    have hq1 : p - 1 = w * y + (x - 1) := by omega
    have hqm : (p - 1) % w = x - 1 := by rw [hq1, decomp_mod (by omega)]
    right; left
    constructor
    · omega
    · omega
  · -- q = p + 1: p = q - 1, and q % w = x + 1 > 0
    have hq1 : p + 1 = w * y + (x + 1) := by omega
    have hqm : (p + 1) % w = x + 1 := by rw [hq1, decomp_mod (by omega)]
    left
    constructor
    · omega
    · omega
  · -- q = p - w: p = q + w, and q / w = y - 1
    have hww : w * 1 ≤ w * y := Nat.mul_le_mul_left w hg
    have hq1 : p - w = w * (y - 1) + x := by
      have h2 : w * (y - 1 + 1) = w * (y - 1) + w := by ring
      have h3 : y - 1 + 1 = y := by omega
      rw [h3] at h2
      omega
    have hqd : (p - w) / w = y - 1 := by rw [hq1, decomp_div hmlt]
    right; right; right
    constructor
    · omega
    · omega
  · -- q = p + w: p = q - w, and q / w = y + 1
    have hq1 : p + w = w * (y + 1) + x := by
      have h2 : w * (y + 1) = w * y + w := by ring
      omega
    have hqd : (p + w) / w = y + 1 := by rw [hq1, decomp_div hmlt]
    right; right; left
    constructor
    · omega
    · omega

/-! ### The component `comp`: membership, closure, leastness -/

lemma alphaAt_pos_lt_length {img : Img} {p : ℕ} (hp : 0 < img.alphaAt p) :
    p < img.px.length := by
  by_contra hcon
  push_neg at hcon
  have : img.alphaAt p = 0 := by
    unfold Img.alphaAt Img.pixelAt
    rw [List.getD_eq_default _ _ hcon]
  omega

lemma mem_expandStep_iff {img : Img} {S : Finset ℕ} {q : ℕ} :
    q ∈ expandStep img S ↔
      q ∈ S ∨ ∃ p ∈ S, q ∈ pushNeighbors img.w img.h p ∧ 0 < img.alphaAt q := by
  unfold expandStep
  simp [Finset.mem_union, Finset.mem_biUnion, List.mem_toFinset, List.mem_filter]

lemma subset_expandStep (img : Img) (S : Finset ℕ) : S ⊆ expandStep img S :=
  Finset.subset_union_left

lemma subset_iterate_expandStep (img : Img) (S : Finset ℕ) (k : ℕ) :
    S ⊆ (expandStep img)^[k] S := by
  induction k with
  | zero => simp
  | succ k ih =>
      rw [Function.iterate_succ_apply']
      exact ih.trans (subset_expandStep img _)

lemma iterate_expandStep_alpha_pos {img : Img} {S : Finset ℕ}
    (hS : ∀ q ∈ S, 0 < img.alphaAt q) (k : ℕ) :
    ∀ q ∈ (expandStep img)^[k] S, 0 < img.alphaAt q := by
  induction k with
  | zero => simpa using hS
  | succ k ih =>
      rw [Function.iterate_succ_apply']
      intro q hq
      rcases mem_expandStep_iff.mp hq with h | ⟨p, _, _, hpos⟩
      · exact ih q h
      · exact hpos

lemma iterate_expandStep_subset_range {img : Img} {S : Finset ℕ}
    (hlen : img.px.length = img.w * img.h)
    (hS : S ⊆ Finset.range (img.w * img.h)) (k : ℕ) :
    (expandStep img)^[k] S ⊆ Finset.range (img.w * img.h) := by
  induction k with
  | zero => simpa using hS
  | succ k ih =>
      rw [Function.iterate_succ_apply']
      intro q hq
      rcases mem_expandStep_iff.mp hq with h | ⟨p, _, _, hpos⟩
      · exact ih h
      · rw [Finset.mem_range, ← hlen]
        exact alphaAt_pos_lt_length hpos

lemma expandStep_iterate_fixed {img : Img} {p : ℕ}
    (hlen : img.px.length = img.w * img.h) (hp : 0 < img.alphaAt p) :
    expandStep img ((expandStep img)^[img.w * img.h] {p}) =
      (expandStep img)^[img.w * img.h] {p} := by
  have hrange : ∀ k, (expandStep img)^[k] {p} ⊆ Finset.range (img.w * img.h) := by
    intro k
    refine iterate_expandStep_subset_range hlen ?_ k
    intro x hx
    rw [Finset.mem_singleton] at hx
    subst hx
    rw [Finset.mem_range, ← hlen]
    exact alphaAt_pos_lt_length hp
  have key : ∀ k : ℕ, expandStep img ((expandStep img)^[k] {p}) = (expandStep img)^[k] {p} ∨
      k + 2 ≤ ((expandStep img)^[k + 1] {p}).card := by
    intro k
    induction k with
    | zero =>
        by_cases h : expandStep img {p} = {p}
        · left; simpa using h
        · right
          have hss : ({p} : Finset ℕ) ⊂ expandStep img {p} :=
            (Finset.ssubset_iff_of_subset (subset_expandStep img _)).mpr
              (by
                by_contra hcon
                push_neg at hcon
                exact h (Finset.Subset.antisymm (fun x hx => hcon x hx)
                  (subset_expandStep img _)))
          have hcard := Finset.card_lt_card hss
          simpa using hcard
    | succ k ih =>
        rcases ih with hfix | hcard
        · left
          rw [Function.iterate_succ_apply', hfix, hfix]
        · by_cases h : expandStep img ((expandStep img)^[k + 1] {p}) =
              (expandStep img)^[k + 1] {p}
          · left; exact h
          · right
            have hss : (expandStep img)^[k + 1] {p} ⊂
                expandStep img ((expandStep img)^[k + 1] {p}) :=
              (Finset.ssubset_iff_of_subset (subset_expandStep img _)).mpr
                (by
                  by_contra hcon
                  push_neg at hcon
                  exact h (Finset.Subset.antisymm (fun x hx => hcon x hx)
                    (subset_expandStep img _)))
            have hlt := Finset.card_lt_card hss
            have hstep : (expandStep img)^[k + 1 + 1] {p} =
                expandStep img ((expandStep img)^[k + 1] {p}) :=
              Function.iterate_succ_apply' _ _ _
            rw [hstep]
            omega
  rcases key (img.w * img.h) with hfix | hcard
  · exact hfix
  · exfalso
    have h1 : ((expandStep img)^[img.w * img.h + 1] {p}).card ≤ img.w * img.h := by
      have hc := Finset.card_le_card (hrange (img.w * img.h + 1))
      simpa using hc
    omega

lemma mem_comp_self {img : Img} {p : ℕ} (hp : 0 < img.alphaAt p) :
    p ∈ comp img p := by
  unfold comp
  rw [if_pos hp]
  exact subset_iterate_expandStep img {p} _ (Finset.mem_singleton_self p)

lemma comp_alpha_pos {img : Img} {p q : ℕ} (hq : q ∈ comp img p) :
    0 < img.alphaAt q := by
  unfold comp at hq
  split_ifs at hq with hp
  · exact iterate_expandStep_alpha_pos (by simpa using hp) _ q hq
  · simp at hq

lemma comp_closed {img : Img} {p q r : ℕ}
    (hlen : img.px.length = img.w * img.h)
    (hq : q ∈ comp img p) (hr : r ∈ pushNeighbors img.w img.h q)
    (hro : 0 < img.alphaAt r) : r ∈ comp img p := by
  have hp : 0 < img.alphaAt p := by
    by_contra hcon
    unfold comp at hq
    rw [if_neg hcon] at hq
    simp at hq
  unfold comp at hq ⊢
  rw [if_pos hp] at hq ⊢
  have hfix := expandStep_iterate_fixed hlen hp
  rw [← hfix]
  exact mem_expandStep_iff.mpr (Or.inr ⟨q, hq, hr, hro⟩)

lemma comp_least {img : Img} {p : ℕ} {T : Finset ℕ} (hpT : p ∈ T)
    (hT : ∀ a ∈ T, ∀ b ∈ pushNeighbors img.w img.h a, 0 < img.alphaAt b → b ∈ T) :
    comp img p ⊆ T := by
  unfold comp
  split_ifs with hp
  · have : ∀ k, (expandStep img)^[k] {p} ⊆ T := by
      intro k
      induction k with
      | zero => simpa using hpT
      | succ k ih =>
          rw [Function.iterate_succ_apply']
          intro q hq
          rcases mem_expandStep_iff.mp hq with h | ⟨a, ha, hadj, hpos⟩
          · exact ih h
          · exact hT a (ih ha) q hadj hpos
    exact this _
  · simp

lemma comp_subset_range {img : Img} {p : ℕ}
    (hlen : img.px.length = img.w * img.h) :
    comp img p ⊆ Finset.range (img.w * img.h) := by
  intro q hq
  rw [Finset.mem_range, ← hlen]
  exact alphaAt_pos_lt_length (comp_alpha_pos hq)

lemma comp_eq_of_mem {img : Img} {p q : ℕ}
    (hlen : img.px.length = img.w * img.h)
    (hq : q ∈ comp img p) : comp img q = comp img p := by
  have hp : 0 < img.alphaAt p := by
    by_contra hcon
    unfold comp at hq
    rw [if_neg hcon] at hq
    simp at hq
  have hsub : ∀ {a b : ℕ}, b ∈ comp img a → comp img b ⊆ comp img a := by
    intro a b hb
    refine comp_least hb ?_
    intro x hx y hy hyo
    exact comp_closed hlen hx hy hyo
  refine Finset.Subset.antisymm (hsub hq) ?_
  -- p ∈ comp img q, via the filtered set of elements whose component holds p
  have hkey : comp img p ⊆ (comp img p).filter (fun x => p ∈ comp img x) := by
    refine comp_least ?_ ?_
    · exact Finset.mem_filter.mpr ⟨mem_comp_self hp, mem_comp_self hp⟩
    · intro a ha b hb hbo
      rw [Finset.mem_filter] at ha ⊢
      obtain ⟨haC, hpa⟩ := ha
      refine ⟨comp_closed hlen haC hb hbo, ?_⟩
      -- comp img a ⊆ comp img b since a ∈ comp img b
      have haN : a < img.w * img.h := by
        rw [← hlen]
        exact alphaAt_pos_lt_length (comp_alpha_pos haC)
      have hab : a ∈ pushNeighbors img.w img.h b := pushNeighbors_symm haN hb
      have haob : a ∈ comp img b :=
        comp_closed hlen (mem_comp_self hbo) hab (comp_alpha_pos haC)
      exact hsub haob hpa
  have hqf := hkey hq
  rw [Finset.mem_filter] at hqf
  exact hsub hqf.2

/-! ### Path invariants for the flood-fill loop -/

lemma CPath.start_mem {w h : ℕ} {C V : Finset ℕ} {a c : ℕ}
    (hp : CPath w h C V a c) : a ∈ C ∧ a ∉ V := by
  induction hp with
  | refl ha hav => exact ⟨ha, hav⟩
  | tail _ _ _ _ ih => exact ih

lemma CPath.insert_of_not_mem {w h : ℕ} {C V : Finset ℕ} {idx a c : ℕ}
    (hidx : idx ∉ C) (hp : CPath w h C V a c) :
    CPath w h C (insert idx V) a c := by
  induction hp with
  | refl ha hav =>
      refine .refl _ ha ?_
      rw [Finset.mem_insert]
      rintro (rfl | hmem)
      · exact hidx ha
      · exact hav hmem
  | tail _ hadj hc hcv ih =>
      refine .tail ih hadj hc ?_
      rw [Finset.mem_insert]
      rintro (rfl | hmem)
      · exact hidx hc
      · exact hcv hmem

lemma CPath.insert_cases {w h : ℕ} {C V : Finset ℕ} {idx a c : ℕ}
    (hp : CPath w h C V a c) :
    CPath w h C (insert idx V) a c ∨
      (∃ d, d ∈ pushNeighbors w h idx ∧ CPath w h C (insert idx V) d c) ∨
        c = idx := by
  induction hp with
  | refl ha hav =>
      by_cases hai : a = idx
      · exact Or.inr (Or.inr hai)
      · refine Or.inl (.refl a ha ?_)
        rw [Finset.mem_insert]
        rintro (rfl | hmem)
        · exact hai rfl
        · exact hav hmem
  | @tail b c hp hadj hc hcv ih =>
      by_cases hci : c = idx
      · exact Or.inr (Or.inr hci)
      · have hcv' : c ∉ insert idx V := by
          rw [Finset.mem_insert]
          rintro (rfl | hmem)
          · exact hci rfl
          · exact hcv hmem
        rcases ih with h1 | ⟨d, hd, h2⟩ | h3
        · exact Or.inl (.tail h1 hadj hc hcv')
        · exact Or.inr (Or.inl ⟨d, hd, .tail h2 hadj hc hcv'⟩)
        · subst h3
          exact Or.inr (Or.inl ⟨c, hadj, .refl c hc hcv'⟩)

/-! ### Unfolding equations for the flood-fill loop -/

lemma floodLoop_zero (img : Img) (stack : List ℕ) (visited : Finset ℕ)
    (region : List ℕ) : floodLoop img 0 stack visited region = (visited, region) :=
  rfl

lemma floodLoop_nil (img : Img) (fuel : ℕ) (visited : Finset ℕ)
    (region : List ℕ) : floodLoop img fuel [] visited region = (visited, region) := by
  cases fuel <;> rfl

lemma floodLoop_cons_visited {img : Img} {fuel idx : ℕ} {rest : List ℕ}
    {visited : Finset ℕ} {region : List ℕ} (hv : idx ∈ visited) :
    floodLoop img (fuel + 1) (idx :: rest) visited region =
      floodLoop img fuel rest visited region := by
  simp [floodLoop, hv]

lemma floodLoop_cons_transparent {img : Img} {fuel idx : ℕ} {rest : List ℕ}
    {visited : Finset ℕ} {region : List ℕ} (hv : idx ∉ visited)
    (ha : img.alphaAt idx = 0) :
    floodLoop img (fuel + 1) (idx :: rest) visited region =
      floodLoop img fuel rest (insert idx visited) region := by
  simp [floodLoop, hv, ha]

lemma floodLoop_cons_live {img : Img} {fuel idx : ℕ} {rest : List ℕ}
    {visited : Finset ℕ} {region : List ℕ} (hv : idx ∉ visited)
    (ha : img.alphaAt idx ≠ 0) :
    floodLoop img (fuel + 1) (idx :: rest) visited region =
      floodLoop img fuel ((pushNeighbors img.w img.h idx).reverse ++ rest)
        (insert idx visited) (region ++ [idx]) := by
  simp [floodLoop, hv, ha]

/-! ### The flood-fill loop explores exactly one component -/

lemma sdiff_card_insert {N idx : ℕ} {visited : Finset ℕ}
    (hidx : idx < N) (hv : idx ∉ visited) :
    (Finset.range N \ insert idx visited).card + 1 =
      (Finset.range N \ visited).card := by
  have hset : Finset.range N \ insert idx visited =
      (Finset.range N \ visited).erase idx := by
    ext z
    simp only [Finset.mem_sdiff, Finset.mem_erase, Finset.mem_insert,
      Finset.mem_range]
    tauto
  have hmem : idx ∈ Finset.range N \ visited := by
    simp [Finset.mem_sdiff, Finset.mem_range, hidx, hv]
  rw [hset, Finset.card_erase_of_mem hmem]
  have hpos := Finset.card_pos.mpr ⟨idx, hmem⟩
  omega

lemma floodLoop_spec {img : Img} {C : Finset ℕ}
    (hlen : img.px.length = img.w * img.h)
    (hCop : ∀ c ∈ C, 0 < img.alphaAt c)
    (hCcl : ∀ c ∈ C, ∀ q ∈ pushNeighbors img.w img.h c,
      0 < img.alphaAt q → q ∈ C) :
    ∀ (fuel : ℕ) (stack : List ℕ) (visited : Finset ℕ) (region : List ℕ),
      5 * ((Finset.range (img.w * img.h)) \ visited).card + stack.length ≤ fuel →
      (∀ s ∈ stack, s < img.w * img.h ∧ (s ∈ C ∨ img.alphaAt s = 0)) →
      (∀ x, x ∈ region ↔ x ∈ visited ∧ x ∈ C) →
      region.Nodup →
      (∀ c ∈ C, c ∉ visited → ∃ s ∈ stack, CPath img.w img.h C visited s c) →
      (∀ x, x ∈ (floodLoop img fuel stack visited region).2 ↔
          x ∈ (floodLoop img fuel stack visited region).1 ∧ x ∈ C) ∧
        (floodLoop img fuel stack visited region).2.Nodup ∧
        (∀ c ∈ C, c ∈ (floodLoop img fuel stack visited region).1) ∧
        (∀ v ∈ visited, v ∈ (floodLoop img fuel stack visited region).1) ∧
        (∀ x ∈ (floodLoop img fuel stack visited region).1,
          x ∈ visited ∨ x ∈ C ∨ img.alphaAt x = 0) := by
  intro fuel
  induction fuel with
  | zero =>
      intro stack visited region hfuel hstack hreg hnd hfront
      have hstack0 : stack = [] := by
        cases stack with
        | nil => rfl
        | cons a l => simp [List.length_cons] at hfuel
      subst hstack0
      rw [floodLoop_zero]
      refine ⟨hreg, hnd, ?_, fun v hv => hv, fun x hx => Or.inl hx⟩
      intro c hc
      by_contra hcv
      obtain ⟨s, hs, _⟩ := hfront c hc hcv
      simp at hs
  | succ fuel ih =>
      intro stack visited region hfuel hstack hreg hnd hfront
      cases stack with
      | nil =>
          rw [floodLoop_nil]
          refine ⟨hreg, hnd, ?_, fun v hv => hv, fun x hx => Or.inl hx⟩
          intro c hc
          by_contra hcv
          obtain ⟨s, hs, _⟩ := hfront c hc hcv
          simp at hs
      | cons idx rest =>
          have hidxlt : idx < img.w * img.h := (hstack idx (by simp)).1
          by_cases hv : idx ∈ visited
          · rw [floodLoop_cons_visited hv]
            apply ih rest visited region
            · simp only [List.length_cons] at hfuel
              omega
            · intro s hs
              exact hstack s (by simp [hs])
            · exact hreg
            · exact hnd
            · intro c hc hcv
              obtain ⟨s, hs, hpath⟩ := hfront c hc hcv
              rcases List.mem_cons.mp hs with rfl | hs'
              · exact absurd hv hpath.start_mem.2
              · exact ⟨s, hs', hpath⟩
          · have hcard := sdiff_card_insert hidxlt hv
            by_cases ha : img.alphaAt idx = 0
            · rw [floodLoop_cons_transparent hv ha]
              have hidxC : idx ∉ C := fun hmem => by
                have := hCop idx hmem
                omega
              obtain ⟨hA, hB, hC2, hD, hE⟩ := ih rest (insert idx visited) region
                (by
                  simp only [List.length_cons] at hfuel
                  omega)
                (fun s hs => hstack s (by simp [hs]))
                (by
                  intro x
                  rw [hreg x]
                  constructor
                  · rintro ⟨hxv, hxC⟩
                    exact ⟨Finset.mem_insert_of_mem hxv, hxC⟩
                  · rintro ⟨hxi, hxC⟩
                    rcases Finset.mem_insert.mp hxi with rfl | hxv
                    · exact absurd hxC hidxC
                    · exact ⟨hxv, hxC⟩)
                hnd
                (by
                  intro c hc hcv
                  have hcv0 : c ∉ visited := fun hmem =>
                    hcv (Finset.mem_insert_of_mem hmem)
                  obtain ⟨s, hs, hpath⟩ := hfront c hc hcv0
                  rcases List.mem_cons.mp hs with rfl | hs'
                  · exact absurd hpath.start_mem.1 hidxC
                  · exact ⟨s, hs', hpath.insert_of_not_mem hidxC⟩)
              refine ⟨hA, hB, hC2, ?_, ?_⟩
              · intro v hvv
                exact hD v (Finset.mem_insert_of_mem hvv)
              · intro x hx
                rcases hE x hx with hx1 | hx2 | hx3
                · rcases Finset.mem_insert.mp hx1 with rfl | hx1'
                  · exact Or.inr (Or.inr ha)
                  · exact Or.inl hx1'
                · exact Or.inr (Or.inl hx2)
                · exact Or.inr (Or.inr hx3)
            · rw [floodLoop_cons_live hv ha]
              have hidxC : idx ∈ C := by
                rcases (hstack idx (by simp)).2 with h | h
                · exact h
                · exact absurd h ha
              obtain ⟨hA, hB, hC2, hD, hE⟩ := ih
                ((pushNeighbors img.w img.h idx).reverse ++ rest)
                (insert idx visited) (region ++ [idx])
                (by
                  simp only [List.length_cons] at hfuel
                  have hlen4 := pushNeighbors_length_le img.w img.h idx
                  simp only [List.length_append, List.length_reverse]
                  omega)
                (by
                  intro s hs
                  rcases List.mem_append.mp hs with hs' | hs'
                  · rw [List.mem_reverse] at hs'
                    refine ⟨pushNeighbors_lt hidxlt hs', ?_⟩
                    by_cases hso : img.alphaAt s = 0
                    · exact Or.inr hso
                    · exact Or.inl (hCcl idx hidxC s hs'
                        (Nat.pos_of_ne_zero hso))
                  · exact hstack s (by simp [hs']))
                (by
                  intro x
                  simp only [List.mem_append, List.mem_singleton]
                  rw [hreg x]
                  constructor
                  · rintro (⟨hxv, hxC⟩ | rfl)
                    · exact ⟨Finset.mem_insert_of_mem hxv, hxC⟩
                    · exact ⟨Finset.mem_insert_self _ _, hidxC⟩
                  · rintro ⟨hxi, hxC⟩
                    rcases Finset.mem_insert.mp hxi with rfl | hxv
                    · exact Or.inr rfl
                    · exact Or.inl ⟨hxv, hxC⟩)
                (by
                  rw [List.nodup_append]
                  refine ⟨hnd, List.nodup_singleton idx, ?_⟩
                  intro x hx
                  simp only [List.mem_singleton]
                  rintro rfl
                  exact hv ((hreg x).mp hx).1)
                (by
                  intro c hc hcv
                  have hcne : c ≠ idx := fun hceq => hcv (hceq ▸ Finset.mem_insert_self _ _)
                  have hcv0 : c ∉ visited := fun hmem =>
                    hcv (Finset.mem_insert_of_mem hmem)
                  obtain ⟨s, hs, hpath⟩ := hfront c hc hcv0
                  rcases @CPath.insert_cases _ _ _ _ idx _ _ hpath with h1 | ⟨d, hd, h2⟩ | h3
                  · rcases List.mem_cons.mp hs with rfl | hs'
                    · exact absurd (Finset.mem_insert_self _ _) h1.start_mem.2
                    · exact ⟨s, List.mem_append.mpr (Or.inr hs'), h1⟩
                  · exact ⟨d, List.mem_append.mpr
                      (Or.inl (List.mem_reverse.mpr hd)), h2⟩
                  · exact absurd h3 hcne)
              refine ⟨hA, hB, hC2, ?_, ?_⟩
              · intro v hvv
                exact hD v (Finset.mem_insert_of_mem hvv)
              · intro x hx
                rcases hE x hx with hx1 | hx2 | hx3
                · rcases Finset.mem_insert.mp hx1 with rfl | hx1'
                  · exact Or.inr (Or.inl hidxC)
                  · exact Or.inl hx1'
                · exact Or.inr (Or.inl hx2)
                · exact Or.inr (Or.inr hx3)

/-! ### Writing a region transparent -/

lemma zeroRegion_w (img : Img) (region : List ℕ) : (zeroRegion img region).w = img.w :=
  rfl

lemma zeroRegion_h (img : Img) (region : List ℕ) : (zeroRegion img region).h = img.h :=
  rfl

lemma zeroRegion_length (img : Img) (region : List ℕ) :
    (zeroRegion img region).px.length = img.px.length :=
  List.length_mapIdx

lemma pixelAt_zeroRegion (img : Img) (region : List ℕ) (i : ℕ) :
    (zeroRegion img region).pixelAt i =
      if i ∈ region ∧ i < img.px.length then
        { img.pixelAt i with a := 0 }
      else img.pixelAt i := by
  unfold zeroRegion Img.pixelAt
  by_cases hi : i < img.px.length
  · have hi' : i < (img.px.mapIdx
        (fun i p => if i ∈ region then { p with a := 0 } else p)).length := by
      rw [List.length_mapIdx]
      exact hi
    rw [List.getD_eq_getElem?_getD, List.getElem?_eq_getElem hi']
    rw [List.getD_eq_getElem?_getD, List.getElem?_eq_getElem hi]
    have hmap := List.get_mapIdx img.px
      (fun i p => if i ∈ region then { p with a := 0 } else p) i hi hi'
    simp only [List.get_eq_getElem] at hmap
    rw [Option.getD_some, Option.getD_some, hmap]
    by_cases hmem : i ∈ region
    · rw [if_pos hmem, if_pos ⟨hmem, hi⟩]
    · rw [if_neg hmem, if_neg (by tauto)]
  · have hi2 : img.px.length ≤ i := Nat.le_of_not_lt hi
    rw [List.getD_eq_default _ _ (by rw [List.length_mapIdx]; exact hi2),
      List.getD_eq_default _ _ hi2, if_neg (by tauto)]

lemma alphaAt_zeroRegion_mem {img : Img} {region : List ℕ} {i : ℕ}
    (hmem : i ∈ region) (hi : i < img.px.length) :
    (zeroRegion img region).alphaAt i = 0 := by
  unfold Img.alphaAt
  rw [pixelAt_zeroRegion, if_pos ⟨hmem, hi⟩]

lemma alphaAt_zeroRegion_not_mem {img : Img} {region : List ℕ} {i : ℕ}
    (hmem : i ∉ region) :
    (zeroRegion img region).alphaAt i = img.alphaAt i := by
  unfold Img.alphaAt
  rw [pixelAt_zeroRegion, if_neg (by tauto)]

/-! ### Connectivity of a component -/

lemma expandStep_mono {img : Img} {S T : Finset ℕ} (hST : S ⊆ T) :
    expandStep img S ⊆ expandStep img T := by
  intro q hq
  rcases mem_expandStep_iff.mp hq with h | ⟨p, hp, hadj, hpos⟩
  · exact mem_expandStep_iff.mpr (Or.inl (hST h))
  · exact mem_expandStep_iff.mpr (Or.inr ⟨p, hST hp, hadj, hpos⟩)

lemma iterate_subset_comp {img : Img} {p : ℕ}
    (hlen : img.px.length = img.w * img.h) (hp : 0 < img.alphaAt p) (k : ℕ) :
    (expandStep img)^[k] {p} ⊆ comp img p := by
  induction k with
  | zero =>
      intro x hx
      rw [Function.iterate_zero_apply, Finset.mem_singleton] at hx
      subst hx
      exact mem_comp_self hp
  | succ k ih =>
      rw [Function.iterate_succ_apply']
      have h1 : expandStep img ((expandStep img)^[k] {p}) ⊆
          expandStep img (comp img p) := expandStep_mono ih
      have h2 : expandStep img (comp img p) = comp img p := by
        unfold comp
        rw [if_pos hp]
        exact expandStep_iterate_fixed hlen hp
      rw [h2] at h1
      exact h1

lemma comp_cpath {img : Img} {p : ℕ} {V : Finset ℕ}
    (hlen : img.px.length = img.w * img.h) (hp : 0 < img.alphaAt p)
    (hdisj : ∀ x ∈ comp img p, x ∉ V) :
    ∀ c ∈ comp img p, CPath img.w img.h (comp img p) V p c := by
  have hiter : ∀ k, ∀ c ∈ (expandStep img)^[k] {p},
      CPath img.w img.h (comp img p) V p c := by
    intro k
    induction k with
    | zero =>
        intro c hc
        rw [Function.iterate_zero_apply, Finset.mem_singleton] at hc
        subst hc
        exact .refl c (mem_comp_self hp) (hdisj c (mem_comp_self hp))
    | succ k ih =>
        rw [Function.iterate_succ_apply']
        intro c hc
        rcases mem_expandStep_iff.mp hc with h | ⟨x, hxS, hadj, hpos⟩
        · exact ih c h
        · have hxC : x ∈ comp img p := iterate_subset_comp hlen hp k hxS
          have hcC : c ∈ comp img p := comp_closed hlen hxC hadj hpos
          exact .tail (ih x hxS) hadj hcC (hdisj c hcC)
  intro c hc
  unfold comp at hc
  rw [if_pos hp] at hc
  exact hiter _ c hc

lemma comp_empty_of_transparent {img : Img} {p : ℕ} (hp : ¬ 0 < img.alphaAt p) :
    comp img p = ∅ := by
  unfold comp
  rw [if_neg hp]

/-! ### One step of the outer seed scan preserves the filter invariant -/

lemma regionFilterStep_spec {img0 : Img} {k : ℕ}
    (hlen : img0.px.length = img0.w * img0.h)
    {st : Img × Finset ℕ} (hinv : FilterInv img0 k st) (i : ℕ) :
    FilterInv img0 k (regionFilterStep k st i) ∧
      st.2 ⊆ (regionFilterStep k st i).2 ∧
      (0 < img0.alphaAt i → i ∈ (regionFilterStep k st i).2) := by
  obtain ⟨hw, hh, hl, hrgb, hI1, hIa⟩ := hinv
  have hlen' : st.1.px.length = st.1.w * st.1.h := by
    rw [hl, hlen, hw, hh]
  have hacur : ∀ j, j ∉ st.2 → st.1.alphaAt j = img0.alphaAt j := by
    intro j hj
    rw [hIa j, if_neg (by tauto)]
  have halpha_cases : ∀ j, st.1.alphaAt j = img0.alphaAt j ∨
      (st.1.alphaAt j = 0 ∧ j ∈ st.2) := by
    intro j
    rw [hIa j]
    by_cases hc : 0 < img0.alphaAt j ∧ j ∈ st.2 ∧ (comp img0 j).card < k
    · rw [if_pos hc]
      exact Or.inr ⟨rfl, hc.2.1⟩
    · rw [if_neg hc]
      exact Or.inl rfl
  by_cases hcond : i ∉ st.2 ∧ 0 < st.1.alphaAt i
  · -- the seed branch runs a flood fill
    obtain ⟨hiV, hio'⟩ := hcond
    have hio0 : 0 < img0.alphaAt i := by
      rw [← hacur i hiV]
      exact hio'
    have hdisj : ∀ x ∈ comp img0 i, x ∉ st.2 := by
      intro x hx hxV
      have hcx : comp img0 x = comp img0 i := comp_eq_of_mem hlen hx
      have hix : i ∈ comp img0 x := hcx ▸ mem_comp_self hio0
      exact hiV (hI1 x hxV i hix)
    have halpha_eq : ∀ j ∈ comp img0 i, st.1.alphaAt j = img0.alphaAt j :=
      fun j hj => hacur j (hdisj j hj)
    have hpush_eq : pushNeighbors st.1.w st.1.h = pushNeighbors img0.w img0.h := by
      rw [hw, hh]
    -- the current image has the same component through i as the original
    have hsub1 : comp st.1 i ⊆ comp img0 i := by
      refine comp_least (mem_comp_self hio0) ?_
      intro a ha b hb hb0
      rw [hpush_eq] at hb
      have hb0' : 0 < img0.alphaAt b := by
        rcases halpha_cases b with hcase | ⟨hz, _⟩
        · rwa [hcase] at hb0
        · rw [hz] at hb0
          omega
      exact comp_closed hlen ha hb hb0'
    have hsub2 : comp img0 i ⊆ comp st.1 i := by
      refine comp_least (mem_comp_self hio') ?_
      intro a ha b hb hb0
      have haC : a ∈ comp img0 i := hsub1 ha
      have hbC : b ∈ comp img0 i := comp_closed hlen haC hb hb0
      have hb0' : 0 < st.1.alphaAt b := by
        rw [halpha_eq b hbC]
        exact hb0
      rw [← hpush_eq] at hb
      exact comp_closed hlen' ha hb hb0'
    have hcomp_eq : comp st.1 i = comp img0 i :=
      Finset.Subset.antisymm hsub1 hsub2
    -- run the flood-fill specification
    obtain ⟨hA, hB, hC2, hD, hE⟩ :=
      @floodLoop_spec st.1 (comp st.1 i) hlen'
        (fun c hc => comp_alpha_pos hc)
        (fun c hc q hq hq0 => comp_closed hlen' hc hq hq0)
        (5 * (st.1.w * st.1.h) + 5) [i] st.2 []
        (by
          have hc1 : ((Finset.range (st.1.w * st.1.h)) \ st.2).card ≤
              st.1.w * st.1.h := by
            calc ((Finset.range (st.1.w * st.1.h)) \ st.2).card ≤
                (Finset.range (st.1.w * st.1.h)).card :=
                  Finset.card_le_card (Finset.sdiff_subset)
              _ = st.1.w * st.1.h := Finset.card_range _
          simp only [List.length_singleton]
          omega)
        (by
          intro s hs
          rw [List.mem_singleton] at hs
          subst hs
          refine ⟨?_, Or.inl (mem_comp_self hio')⟩
          rw [← hlen']
          exact alphaAt_pos_lt_length hio')
        (by
          intro x
          simp only [List.not_mem_nil, false_iff]
          rintro ⟨hxv, hxC⟩
          exact hdisj x (hcomp_eq ▸ hxC) hxv)
        List.nodup_nil
        (by
          intro c hc hcv
          refine ⟨i, List.mem_singleton_self i, ?_⟩
          have hdisj' : ∀ x ∈ comp st.1 i, x ∉ st.2 := by
            intro x hx
            exact hdisj x (hcomp_eq ▸ hx)
          exact comp_cpath hlen' hio' hdisj' c hc)
    -- facts about the collected region
    have hresSet : ∀ x, x ∈ (floodLoop st.1 (5 * (st.1.w * st.1.h) + 5)
        [i] st.2 []).2 ↔ x ∈ comp st.1 i := by
      intro x
      constructor
      · intro hx
        exact ((hA x).mp hx).2
      · intro hx
        exact (hA x).mpr ⟨hC2 x hx, hx⟩
    have hres_len : (floodLoop st.1 (5 * (st.1.w * st.1.h) + 5)
        [i] st.2 []).2.length = (comp st.1 i).card := by
      have htf : (floodLoop st.1 (5 * (st.1.w * st.1.h) + 5)
          [i] st.2 []).2.toFinset = comp st.1 i := by
        ext x
        rw [List.mem_toFinset]
        exact hresSet x
      rw [← htf, List.toFinset_card_of_nodup hB]
    -- invariant pieces shared by both size branches, for the new visited set
    have hI1' : ∀ x ∈ (floodLoop st.1 (5 * (st.1.w * st.1.h) + 5) [i] st.2 []).1,
        ∀ j ∈ comp img0 x, j ∈ (floodLoop st.1 (5 * (st.1.w * st.1.h) + 5)
          [i] st.2 []).1 := by
      intro x hx j hj
      rcases hE x hx with hx1 | hx2 | hx3
      · exact hD j (hI1 x hx1 j hj)
      · have hxC : x ∈ comp img0 i := hcomp_eq ▸ hx2
        have : comp img0 x = comp img0 i := comp_eq_of_mem hlen hxC
        rw [this] at hj
        exact hC2 j (hcomp_eq ▸ hj)
      · by_cases hx0 : 0 < img0.alphaAt x
        · have hxV : x ∈ st.2 := by
            by_contra hcon
            rw [hacur x hcon] at hx3
            omega
          exact hD j (hI1 x hxV j hj)
        · rw [comp_empty_of_transparent hx0] at hj
          simp at hj
    -- the alpha story for pixels outside the filled component
    have hother : ∀ j, j ∉ comp st.1 i →
        st.1.alphaAt j =
          if 0 < img0.alphaAt j ∧
              j ∈ (floodLoop st.1 (5 * (st.1.w * st.1.h) + 5) [i] st.2 []).1 ∧
              (comp img0 j).card < k then 0
          else img0.alphaAt j := by
      intro j hjC
      by_cases hjV : j ∈ st.2
      · rw [hIa j]
        by_cases hc : 0 < img0.alphaAt j ∧ (comp img0 j).card < k
        · rw [if_pos ⟨hc.1, hjV, hc.2⟩, if_pos ⟨hc.1, hD j hjV, hc.2⟩]
        · rw [if_neg (by tauto), if_neg (by tauto)]
      · rw [hacur j hjV]
        by_cases hjR : j ∈ (floodLoop st.1 (5 * (st.1.w * st.1.h) + 5)
            [i] st.2 []).1
        · rcases hE j hjR with hj1 | hj2 | hj3
          · exact absurd hj1 hjV
          · exact absurd hj2 hjC
          · rw [hacur j hjV] at hj3
            rw [hj3, if_neg (by omega)]
        · rw [if_neg (by tauto)]
    constructor
    · -- the new state satisfies the invariant
      show FilterInv img0 k (regionFilterStep k st i)
      unfold regionFilterStep
      rw [if_pos ⟨hiV, hio'⟩]
      simp only
      split
      · -- small region: it is zeroed
        rename_i hsize
        have hcard_small : (comp st.1 i).card < k := by
          rw [← hres_len]
          exact hsize
        refine ⟨(zeroRegion_w _ _).trans hw, (zeroRegion_h _ _).trans hh, ?_, ?_, hI1', ?_⟩
        · rw [zeroRegion_length, hl]
        · intro j
          rw [Img.pixelAt, Img.pixelAt, ← Img.pixelAt, ← Img.pixelAt,
            pixelAt_zeroRegion]
          split
          · exact hrgb j
          · exact hrgb j
        · intro j
          by_cases hjC : j ∈ comp st.1 i
          · have hjR : j ∈ (floodLoop st.1 (5 * (st.1.w * st.1.h) + 5)
                [i] st.2 []).2 := (hresSet j).mpr hjC
            have hj0' : 0 < st.1.alphaAt j := comp_alpha_pos hjC
            have hjlen : j < st.1.px.length := alphaAt_pos_lt_length hj0'
            have hj0 : 0 < img0.alphaAt j := by
              rw [← halpha_eq j (hcomp_eq ▸ hjC)]
              exact hj0'
            rw [alphaAt_zeroRegion_mem hjR hjlen]
            have hjcomp : comp img0 j = comp img0 i :=
              comp_eq_of_mem hlen (hcomp_eq ▸ hjC)
            rw [if_pos ⟨hj0, hC2 j hjC, by rw [hjcomp, ← hcomp_eq]; exact hcard_small⟩]
          · have hjR : j ∉ (floodLoop st.1 (5 * (st.1.w * st.1.h) + 5)
                [i] st.2 []).2 := fun hmem => hjC ((hresSet j).mp hmem)
            rw [alphaAt_zeroRegion_not_mem hjR]
            exact hother j hjC
      · -- large region: the image is unchanged
        rename_i hsize
        have hcard_large : ¬ (comp st.1 i).card < k := by
          rw [← hres_len]
          exact hsize
        refine ⟨hw, hh, hl, hrgb, hI1', ?_⟩
        intro j
        by_cases hjC : j ∈ comp st.1 i
        · have hj0' : 0 < st.1.alphaAt j := comp_alpha_pos hjC
          have hj0 : 0 < img0.alphaAt j := by
            rw [← halpha_eq j (hcomp_eq ▸ hjC)]
            exact hj0'
          have hjcomp : comp img0 j = comp img0 i :=
            comp_eq_of_mem hlen (hcomp_eq ▸ hjC)
          rw [halpha_eq j (hcomp_eq ▸ hjC),
            if_neg (by
              rintro ⟨_, _, hsmall⟩
              rw [hjcomp, ← hcomp_eq] at hsmall
              exact hcard_large hsmall)]
        · exact hother j hjC
    · constructor
      · -- the visited set only grows
        show st.2 ⊆ (regionFilterStep k st i).2
        unfold regionFilterStep
        rw [if_pos ⟨hiV, hio'⟩]
        simp only
        split
        · exact fun v hv => hD v hv
        · exact fun v hv => hD v hv
      · -- the seed itself ends visited
        intro _
        show i ∈ (regionFilterStep k st i).2
        unfold regionFilterStep
        rw [if_pos ⟨hiV, hio'⟩]
        simp only
        have hiRes : i ∈ (floodLoop st.1 (5 * (st.1.w * st.1.h) + 5)
            [i] st.2 []).1 := hC2 i (mem_comp_self hio')
        split
        · exact hiRes
        · exact hiRes
  · -- the guard fails: the state is unchanged
    have hstep : regionFilterStep k st i = st := by
      unfold regionFilterStep
      rw [if_neg hcond]
    rw [hstep]
    refine ⟨⟨hw, hh, hl, hrgb, hI1, hIa⟩, fun v hv => hv, ?_⟩
    intro hi0
    by_cases hiV : i ∈ st.2
    · exact hiV
    · exfalso
      have : 0 < st.1.alphaAt i := by
        rw [hacur i hiV]
        exact hi0
      exact hcond ⟨hiV, this⟩

/-! ### The whole seed scan: the region filter's functional description -/

lemma regionFilterFold_spec {img0 : Img} {k : ℕ}
    (hlen : img0.px.length = img0.w * img0.h) :
    ∀ (order : List ℕ) (st : Img × Finset ℕ), FilterInv img0 k st →
      FilterInv img0 k (order.foldl (regionFilterStep k) st) ∧
        st.2 ⊆ (order.foldl (regionFilterStep k) st).2 ∧
        (∀ i ∈ order, 0 < img0.alphaAt i →
          i ∈ (order.foldl (regionFilterStep k) st).2) := by
  intro order
  induction order with
  | nil =>
      intro st hinv
      exact ⟨hinv, fun v hv => hv, by simp⟩
  | cons a rest ih =>
      intro st hinv
      obtain ⟨hinv1, hsub1, hprog1⟩ := regionFilterStep_spec hlen hinv a
      obtain ⟨hinv2, hsub2, hprog2⟩ := ih (regionFilterStep k st a) hinv1
      rw [List.foldl_cons]
      refine ⟨hinv2, fun v hv => hsub2 (hsub1 hv), ?_⟩
      intro i hi hi0
      rcases List.mem_cons.mp hi with rfl | hi'
      · exact hsub2 (hprog1 hi0)
      · exact hprog2 i hi' hi0

lemma filterInv_init (img : Img) (k : ℕ) : FilterInv img k (img, ∅) := by
  refine ⟨rfl, rfl, rfl, fun i => ⟨rfl, rfl, rfl⟩, by simp, ?_⟩
  intro i
  rw [if_neg (by simp)]

/-- The functional description of the region-filter pass: a pixel ends
transparent exactly when it was transparent already or its maximal
4-connected opaque region has fewer than `k` pixels; otherwise its alpha is
untouched.  The scan order only needs to contain every opaque pixel. -/
theorem regionFilterRun_alpha (img : Img) (order : List ℕ) (k : ℕ)
    (hlen : img.px.length = img.w * img.h)
    (hcover : ∀ i, 0 < img.alphaAt i → i ∈ order) (q : ℕ) :
    (regionFilterRun img order k).alphaAt q =
      if 0 < img.alphaAt q ∧ (comp img q).card < k then 0
      else img.alphaAt q := by
  obtain ⟨⟨hw, hh, hl, hrgb, hI1, hIa⟩, hsub, hprog⟩ :=
    regionFilterFold_spec hlen order (img, ∅) (filterInv_init img k)
  unfold regionFilterRun
  rw [hIa q]
  by_cases hq0 : 0 < img.alphaAt q
  · have hqV : q ∈ (order.foldl (regionFilterStep k) (img, ∅)).2 :=
      hprog q (hcover q hq0) hq0
    by_cases hsmall : (comp img q).card < k
    · rw [if_pos ⟨hq0, hqV, hsmall⟩, if_pos ⟨hq0, hsmall⟩]
    · rw [if_neg (by tauto), if_neg (by tauto)]
  · rw [if_neg (by tauto), if_neg (by tauto)]

lemma regionFilterRun_w (img : Img) (order : List ℕ) (k : ℕ)
    (hlen : img.px.length = img.w * img.h) :
    (regionFilterRun img order k).w = img.w :=
  (regionFilterFold_spec hlen order (img, ∅) (filterInv_init img k)).1.1

lemma regionFilterRun_h (img : Img) (order : List ℕ) (k : ℕ)
    (hlen : img.px.length = img.w * img.h) :
    (regionFilterRun img order k).h = img.h :=
  (regionFilterFold_spec hlen order (img, ∅) (filterInv_init img k)).1.2.1

lemma regionFilterRun_length (img : Img) (order : List ℕ) (k : ℕ)
    (hlen : img.px.length = img.w * img.h) :
    (regionFilterRun img order k).px.length = img.px.length :=
  (regionFilterFold_spec hlen order (img, ∅) (filterInv_init img k)).1.2.2.1

lemma regionFilterRun_rgb (img : Img) (order : List ℕ) (k : ℕ)
    (hlen : img.px.length = img.w * img.h) (i : ℕ) :
    ((regionFilterRun img order k).pixelAt i).r = (img.pixelAt i).r ∧
      ((regionFilterRun img order k).pixelAt i).g = (img.pixelAt i).g ∧
      ((regionFilterRun img order k).pixelAt i).b = (img.pixelAt i).b :=
  (regionFilterFold_spec hlen order (img, ∅) (filterInv_init img k)).1.2.2.2.1 i

/-! ### Image extensionality helpers -/

lemma pixel_ext {p q : Pixel} (hr : p.r = q.r) (hg : p.g = q.g)
    (hb : p.b = q.b) (ha : p.a = q.a) : p = q := by
  cases p
  cases q
  simp_all

lemma img_ext {a b : Img} (hw : a.w = b.w) (hh : a.h = b.h)
    (hpx : a.px = b.px) : a = b := by
  cases a
  cases b
  simp_all

lemma pixelAt_eq_getElem {img : Img} {n : ℕ} (h : n < img.px.length) :
    img.pixelAt n = img.px[n] := by
  unfold Img.pixelAt
  rw [List.getD_eq_getElem?_getD, List.getElem?_eq_getElem h]
  rfl

/-! ### Dimension bookkeeping for the stages -/

lemma chromaPass_w (img : Img) (bg : RGB) (t : ℚ) : (chromaPass img bg t).w = img.w :=
  rfl

lemma chromaPass_h (img : Img) (bg : RGB) (t : ℚ) : (chromaPass img bg t).h = img.h :=
  rfl

lemma chromaPass_length (img : Img) (bg : RGB) (t : ℚ) :
    (chromaPass img bg t).px.length = img.px.length :=
  List.length_map _ _

lemma erode_length (img : Img) (radius : ℕ) :
    (erode img radius).px.length = img.w * img.h := by
  simp [erode]

lemma dilate_length (img : Img) (radius : ℕ) :
    (dilate img radius).px.length = img.w * img.h := by
  simp [dilate]

lemma chromaPass_pixelAt {img : Img} {i : ℕ} (bg : RGB) (t : ℚ)
    (h : i < img.px.length) :
    (chromaPass img bg t).pixelAt i = chromaPixel bg t (img.pixelAt i) := by
  unfold chromaPass Img.pixelAt
  rw [List.getD_eq_getElem?_getD, List.getElem?_map, List.getElem?_eq_getElem h]
  rw [List.getD_eq_getElem?_getD, List.getElem?_eq_getElem h]
  rfl

lemma chromaPass_rgbAt (img : Img) (bg : RGB) (t : ℚ) (i : ℕ) :
    (chromaPass img bg t).rgbAt i = img.rgbAt i := by
  unfold Img.rgbAt
  by_cases h : i < img.px.length
  · rw [chromaPass_pixelAt bg t h, chromaPixel_r, chromaPixel_g, chromaPixel_b]
  · have h2 : img.px.length ≤ i := Nat.le_of_not_lt h
    unfold chromaPass Img.pixelAt
    rw [List.getD_eq_default _ _ (by rw [List.length_map]; exact h2),
      List.getD_eq_default _ _ h2]

lemma erode_rgbAt (img : Img) (radius : ℕ) {i : ℕ} (hi : i < img.w * img.h) :
    (erode img radius).rgbAt i = img.rgbAt i := by
  unfold Img.rgbAt
  have hpix : (erode img radius).pixelAt i =
      erodePixel img (i % img.w) (i / img.w) radius := by
    unfold erode Img.pixelAt
    rw [getD_map_range _ hi]
  rw [hpix]
  unfold erodePixel
  rw [self_eq_div_mul_add_mod i img.w]
  split <;> rfl

lemma dilate_rgbAt (img : Img) (radius : ℕ) {i : ℕ} (hi : i < img.w * img.h) :
    (dilate img radius).rgbAt i = img.rgbAt i := by
  unfold Img.rgbAt
  have hpix : (dilate img radius).pixelAt i =
      dilatePixel img (i % img.w) (i / img.w) radius := by
    unfold dilate Img.pixelAt
    rw [getD_map_range _ hi]
  rw [hpix]
  unfold dilatePixel
  rw [self_eq_div_mul_add_mod i img.w]

lemma regionFilterRun_rgbAt (img : Img) (order : List ℕ) (k : ℕ)
    (hlen : img.px.length = img.w * img.h) (i : ℕ) :
    (regionFilterRun img order k).rgbAt i = img.rgbAt i := by
  obtain ⟨h1, h2, h3⟩ := regionFilterRun_rgb img order k hlen i
  unfold Img.rgbAt
  rw [h1, h2, h3]

/-! ### Claim C6: the region filter is scan-order independent -/

/-- C6: two scan orders that are permutations of the raster order produce
identical output images; in particular the set of pixels ending fully
transparent is the same. -/
theorem regionFilter_scan_order_independent (img : Img) (k : ℕ) (o1 o2 : List ℕ)
    (hlen : img.px.length = img.w * img.h)
    (h1 : o1.Perm (List.range (img.w * img.h)))
    (h2 : o2.Perm (List.range (img.w * img.h))) :
    regionFilterRun img o1 k = regionFilterRun img o2 k ∧
      ∀ q, ((regionFilterRun img o1 k).alphaAt q = 0 ↔
        (regionFilterRun img o2 k).alphaAt q = 0) := by
  have hc1 : ∀ i, 0 < img.alphaAt i → i ∈ o1 := by
    intro i hi
    rw [h1.mem_iff, List.mem_range, ← hlen]
    exact alphaAt_pos_lt_length hi
  have hc2 : ∀ i, 0 < img.alphaAt i → i ∈ o2 := by
    intro i hi
    rw [h2.mem_iff, List.mem_range, ← hlen]
    exact alphaAt_pos_lt_length hi
  have heq : regionFilterRun img o1 k = regionFilterRun img o2 k := by
    apply img_ext
    · rw [regionFilterRun_w img o1 k hlen, regionFilterRun_w img o2 k hlen]
    · rw [regionFilterRun_h img o1 k hlen, regionFilterRun_h img o2 k hlen]
    · apply List.ext_getElem
      · rw [regionFilterRun_length img o1 k hlen,
          regionFilterRun_length img o2 k hlen]
      · intro n hn1 hn2
        rw [← pixelAt_eq_getElem hn1, ← pixelAt_eq_getElem hn2]
        obtain ⟨hr1, hg1, hb1⟩ := regionFilterRun_rgb img o1 k hlen n
        obtain ⟨hr2, hg2, hb2⟩ := regionFilterRun_rgb img o2 k hlen n
        refine pixel_ext (by rw [hr1, hr2]) (by rw [hg1, hg2]) (by rw [hb1, hb2]) ?_
        show (regionFilterRun img o1 k).alphaAt n = (regionFilterRun img o2 k).alphaAt n
        rw [regionFilterRun_alpha img o1 k hlen hc1 n,
          regionFilterRun_alpha img o2 k hlen hc2 n]
  exact ⟨heq, fun q => by rw [heq]⟩

/-- Witness for C6 at a concrete image and two shuffled scan orders. -/
theorem regionFilter_scan_order_independent_witness :
    c5Img.px.length = c5Img.w * c5Img.h ∧
      ([0, 1, 2, 3, 4, 5, 6, 7, 8].Perm (List.range (c5Img.w * c5Img.h)) ∧
        [8, 7, 6, 5, 4, 3, 2, 1, 0].Perm (List.range (c5Img.w * c5Img.h))) ∧
      (regionFilterRun c5Img [0, 1, 2, 3, 4, 5, 6, 7, 8] 2 =
          regionFilterRun c5Img [8, 7, 6, 5, 4, 3, 2, 1, 0] 2 ∧
        ∀ q, ((regionFilterRun c5Img [0, 1, 2, 3, 4, 5, 6, 7, 8] 2).alphaAt q = 0 ↔
          (regionFilterRun c5Img [8, 7, 6, 5, 4, 3, 2, 1, 0] 2).alphaAt q = 0)) :=
  ⟨by decide, ⟨by decide, by decide⟩,
    regionFilter_scan_order_independent c5Img 2 _ _ (by decide) (by decide) (by decide)⟩

/-! ### Claim C5: small regions are eliminated, larger ones survive -/

/-- C5: for a maximal 4-connected opaque region (the component of an opaque
pixel `p`): a region of exactly `k` pixels keeps every alpha, a region of
`k - 1` pixels is wholly zeroed, and an isolated single opaque pixel is
removed whenever `k > 1`. -/
theorem regionFilter_small_region_elimination (img : Img) (k p : ℕ)
    (hlen : img.px.length = img.w * img.h) (hp : 0 < img.alphaAt p) :
    ((comp img p).card = k →
      ∀ q ∈ comp img p, (regionFilter img k).alphaAt q = img.alphaAt q) ∧
      ((comp img p).card = k - 1 →
        ∀ q ∈ comp img p, (regionFilter img k).alphaAt q = 0) ∧
      ((comp img p).card = 1 → 1 < k → (regionFilter img k).alphaAt p = 0) := by
  have hcover : ∀ i, 0 < img.alphaAt i → i ∈ List.range (img.w * img.h) := by
    intro i hi
    rw [List.mem_range, ← hlen]
    exact alphaAt_pos_lt_length hi
  have halpha : ∀ q, (regionFilter img k).alphaAt q =
      if 0 < img.alphaAt q ∧ (comp img q).card < k then 0
      else img.alphaAt q := by
    intro q
    exact regionFilterRun_alpha img (List.range (img.w * img.h)) k hlen hcover q
  refine ⟨?_, ?_, ?_⟩
  · intro hcard q hq
    have hcq : comp img q = comp img p := comp_eq_of_mem hlen hq
    have hne : ¬ (0 < img.alphaAt q ∧ (comp img q).card < k) := by
      rintro ⟨_, hsmall⟩
      rw [hcq, hcard] at hsmall
      exact lt_irrefl _ hsmall
    rw [halpha q, if_neg hne]
  · intro hcard q hq
    have hq0 : 0 < img.alphaAt q := comp_alpha_pos hq
    have hcq : comp img q = comp img p := comp_eq_of_mem hlen hq
    have hpos : 0 < (comp img p).card :=
      Finset.card_pos.mpr ⟨p, mem_comp_self hp⟩
    have hlt : (comp img q).card < k := by
      rw [hcq, hcard]
      omega
    rw [halpha q, if_pos ⟨hq0, hlt⟩]
  · intro hcard hk
    have hlt : (comp img p).card < k := by
      rw [hcard]
      omega
    rw [halpha p, if_pos ⟨hp, hlt⟩]

/-- Witness for C5 at a concrete image with a region of two pixels. -/
theorem regionFilter_small_region_elimination_witness :
    c5Img.px.length = c5Img.w * c5Img.h ∧ 0 < c5Img.alphaAt 4 ∧
      (((comp c5Img 4).card = 2 →
        ∀ q ∈ comp c5Img 4, (regionFilter c5Img 2).alphaAt q = c5Img.alphaAt q) ∧
        (((comp c5Img 4).card = 2 - 1 →
          ∀ q ∈ comp c5Img 4, (regionFilter c5Img 2).alphaAt q = 0)) ∧
        ((comp c5Img 4).card = 1 → 1 < 2 → (regionFilter c5Img 2).alphaAt 4 = 0)) :=
  ⟨by decide, by decide,
    regionFilter_small_region_elimination c5Img 2 4 (by decide) (by decide)⟩

/-! ### Claim C3: the region-size threshold is not caller-suppliable -/

set_option maxRecDepth 40000 in
/-- Counterexample to C3 as stated: `removeBackgroundColor` exposes only the
image, the color string and `tolerance`; its region threshold is the local
constant 50.  On `blockImg` the pre-filter pipeline leaves a 25-pixel opaque
block (`blockMorphed`, alpha 255 at index 40), the full routine erases it
(25 < 50), while a filter run with a caller-chosen `minRegionSize = 1` — what
the claim says the interface accepts — keeps it. -/
theorem minRegionSize_not_configurable_counterexample :
    (removeBackgroundColor blockImg "#00FF00" 50).alphaAt 40 = 0 ∧
      (regionFilter blockMorphed 1).alphaAt 40 = 255 ∧
      blockMorphed.alphaAt 40 = 255 := by
  refine ⟨?_, ?_, ?_⟩ <;> decide

/-- C3 amended: `tolerance` is the caller-facing configuration of
`removeBackgroundColor` (default 50); the region threshold is fixed: the
routine's output alpha follows the region filter with the hardcoded
threshold 50 on the morphed image. -/
theorem regionThreshold_hardcoded_fifty (img : Img) (bgStr : String) (t : ℚ)
    (q : ℕ) :
    (removeBackgroundColor img bgStr t).alphaAt q =
      if 0 < (dilate (dilate (erode (erode
            (chromaPass img (parseHexColor bgStr) t) 1) 1) 1) 1).alphaAt q ∧
          (comp (dilate (dilate (erode (erode
            (chromaPass img (parseHexColor bgStr) t) 1) 1) 1) 1) q).card < 50
      then 0
      else (dilate (dilate (erode (erode
        (chromaPass img (parseHexColor bgStr) t) 1) 1) 1) 1).alphaAt q := by
  have hlenm : (dilate (dilate (erode (erode
        (chromaPass img (parseHexColor bgStr) t) 1) 1) 1) 1).px.length =
      (dilate (dilate (erode (erode
        (chromaPass img (parseHexColor bgStr) t) 1) 1) 1) 1).w *
        (dilate (dilate (erode (erode
          (chromaPass img (parseHexColor bgStr) t) 1) 1) 1) 1).h :=
    dilate_length _ 1
  have hcover : ∀ i, 0 < (dilate (dilate (erode (erode
        (chromaPass img (parseHexColor bgStr) t) 1) 1) 1) 1).alphaAt i →
      i ∈ List.range ((dilate (dilate (erode (erode
        (chromaPass img (parseHexColor bgStr) t) 1) 1) 1) 1).w *
          (dilate (dilate (erode (erode
            (chromaPass img (parseHexColor bgStr) t) 1) 1) 1) 1).h) := by
    intro i hi
    rw [List.mem_range, ← hlenm]
    exact alphaAt_pos_lt_length hi
  exact regionFilterRun_alpha _ _ 50 hlenm hcover q

/-! ### Claim C8: every stage writes only the alpha channel -/

/-- C8: the chroma key, one erosion, one dilation, and the region filter all
leave the red, green and blue channels of every pixel unchanged. -/
theorem stages_preserve_rgb (img : Img) (bg : RGB) (t : ℚ) (order : List ℕ)
    (k i : ℕ) (hlen : img.px.length = img.w * img.h)
    (hi : i < img.w * img.h) :
    (chromaPass img bg t).rgbAt i = img.rgbAt i ∧
      (erode img 1).rgbAt i = img.rgbAt i ∧
      (dilate img 1).rgbAt i = img.rgbAt i ∧
      (regionFilterRun img order k).rgbAt i = img.rgbAt i :=
  ⟨chromaPass_rgbAt img bg t i, erode_rgbAt img 1 hi, dilate_rgbAt img 1 hi,
    regionFilterRun_rgbAt img order k hlen i⟩

/-- Witness for C8 at a concrete one-pixel image. -/
theorem stages_preserve_rgb_witness :
    tinyImg.px.length = tinyImg.w * tinyImg.h ∧ 0 < tinyImg.w * tinyImg.h ∧
      ((chromaPass tinyImg ⟨0, 255, 0⟩ 50).rgbAt 0 = tinyImg.rgbAt 0 ∧
        (erode tinyImg 1).rgbAt 0 = tinyImg.rgbAt 0 ∧
        (dilate tinyImg 1).rgbAt 0 = tinyImg.rgbAt 0 ∧
        (regionFilterRun tinyImg [0] 1).rgbAt 0 = tinyImg.rgbAt 0) :=
  ⟨by decide, by decide,
    stages_preserve_rgb tinyImg ⟨0, 255, 0⟩ 50 [0] 1 0 (by decide) (by decide)⟩

/-! ### Claim C9: the color sampler always yields a key color -/

/-- C9: `getContrastingColor` returns a key color on every outcome; both
failure modes (load error, missing 2d context) fall back to green; a
successful sample yields magenta exactly when the average luminance exceeds
128, and green otherwise. -/
theorem colorSampler_total_and_fallback (o : SampleOutcome) :
    (getContrastingColor o = "#00FF00" ∨ getContrastingColor o = "#FF00FF") ∧
      (o = SampleOutcome.loadError ∨ o = SampleOutcome.noContext →
        getContrastingColor o = "#00FF00") ∧
      (∀ data, o = SampleOutcome.sampled data →
        ((getContrastingColor o = "#FF00FF" ↔ 128 < avgBrightness data) ∧
          (avgBrightness data ≤ 128 → getContrastingColor o = "#00FF00"))) := by
  cases o with
  | loadError =>
      refine ⟨Or.inl rfl, fun _ => rfl, ?_⟩
      rintro data ⟨⟩
  | noContext =>
      refine ⟨Or.inl rfl, fun _ => rfl, ?_⟩
      rintro data ⟨⟩
  | sampled data =>
      refine ⟨?_, ?_, ?_⟩
      · simp only [getContrastingColor]
        split_ifs
        · exact Or.inr rfl
        · exact Or.inl rfl
      · rintro (h | h) <;> cases h
      · rintro d hd
        injection hd with hd
        subst hd
        simp only [getContrastingColor]
        split_ifs with hb
        · exact ⟨⟨fun _ => hb, fun _ => rfl⟩, fun hle => absurd hb (not_lt.mpr hle)⟩
        · refine ⟨⟨fun hcontra => absurd hcontra (by decide), ?_⟩, fun _ => rfl⟩
          intro hb2
          exact absurd hb2 hb

/-- Witness for C9: a successful sample of a single white pixel (average
luminance 255/10000) yields the green key. -/
theorem colorSampler_total_and_fallback_witness :
    getContrastingColor (SampleOutcome.sampled [⟨255, 255, 255, 255⟩]) = "#00FF00" := by
  obtain ⟨_, _, hiff⟩ :=
    colorSampler_total_and_fallback (SampleOutcome.sampled [⟨255, 255, 255, 255⟩])
  obtain ⟨_, hgreen⟩ := hiff [⟨255, 255, 255, 255⟩] rfl
  apply hgreen
  unfold avgBrightness
  norm_num

/-! ### Real-number reading of the chroma-key comparisons -/

lemma distSq_cast (p : Pixel) (bg : RGB) :
    ((distSq p bg : ℕ) : ℝ) =
      ((p.r : ℝ) - bg.r) ^ 2 + ((p.g : ℝ) - bg.g) ^ 2 + ((p.b : ℝ) - bg.b) ^ 2 := by
  unfold distSq
  push_cast [Int.cast_natAbs]
  rw [sq_abs, sq_abs, sq_abs]

lemma rat_cast_def_real (t : ℚ) : (t : ℝ) = (t.num : ℝ) / (t.den : ℝ) := by
  rw [Rat.cast_def]

lemma den_pos_real (t : ℚ) : (0 : ℝ) < (t.den : ℝ) := by
  exact_mod_cast Nat.pos_of_ne_zero t.den_nz

lemma branch1_iff (t : ℚ) (ht : 0 < t) (n : ℕ) :
    (0 < t.num ∧ (n : ℤ) * t.den ^ 2 < t.num ^ 2) ↔ Real.sqrt n < (t : ℝ) := by
  have hnum : 0 < t.num := Rat.num_pos.mpr ht
  have ht' : (0 : ℝ) < (t : ℝ) := by exact_mod_cast ht
  have hden := den_pos_real t
  rw [Real.sqrt_lt' ht', and_iff_right hnum, rat_cast_def_real t, div_pow,
    lt_div_iff (by positivity)]
  constructor
  · intro hlt
    exact_mod_cast hlt
  · intro hlt
    exact_mod_cast hlt

lemma branch2_iff (t : ℚ) (ht : 0 < t) (n : ℕ) :
    (0 < t.num ∧ (n : ℤ) * 100 * t.den ^ 2 < t.num ^ 2 * 169) ↔
      Real.sqrt n < 1.3 * (t : ℝ) := by
  have hnum : 0 < t.num := Rat.num_pos.mpr ht
  have ht' : (0 : ℝ) < (t : ℝ) := by exact_mod_cast ht
  have hden := den_pos_real t
  have h13 : (0 : ℝ) < 1.3 * (t : ℝ) := by positivity
  rw [Real.sqrt_lt' h13, and_iff_right hnum, mul_pow, rat_cast_def_real t,
    div_pow]
  rw [show (1.3 : ℝ) ^ 2 * ((t.num : ℝ) ^ 2 / (t.den : ℝ) ^ 2) =
      (1.3 ^ 2 * (t.num : ℝ) ^ 2) / (t.den : ℝ) ^ 2 by ring]
  rw [lt_div_iff (by positivity)]
  constructor
  · intro hlt
    have hlt' : ((n : ℝ)) * 100 * (t.den : ℝ) ^ 2 < (t.num : ℝ) ^ 2 * 169 := by
      exact_mod_cast hlt
    nlinarith [hlt']
  · intro hlt
    have hlt' : ((n : ℝ)) * 100 * (t.den : ℝ) ^ 2 < (t.num : ℝ) ^ 2 * 169 := by
      nlinarith [hlt]
    exact_mod_cast hlt'

lemma ratLeSqrt_iff {c : ℤ} (hc : 0 < c) {t : ℚ} (ht : 0 < t) (n : ℕ) :
    (ratLeSqrt c t n = true) ↔ (c : ℝ) * (t : ℝ) / 1700 ≤ Real.sqrt n := by
  unfold ratLeSqrt
  rw [Bool.or_eq_true, decide_eq_true_eq, decide_eq_true_eq]
  have hnum : 0 < t.num := Rat.num_pos.mpr ht
  have ht' : (0 : ℝ) < (t : ℝ) := by exact_mod_cast ht
  have hc' : (0 : ℝ) < (c : ℝ) := by exact_mod_cast hc
  have hden := den_pos_real t
  rw [or_iff_right (not_le.mpr (mul_pos hc hnum))]
  rw [Real.le_sqrt (by positivity) (by positivity)]
  rw [rat_cast_def_real t]
  rw [show (c : ℝ) * ((t.num : ℝ) / (t.den : ℝ)) / 1700 =
      ((c : ℝ) * (t.num : ℝ)) / ((t.den : ℝ) * 1700) by ring]
  rw [div_pow, div_le_iff (by positivity)]
  constructor
  · intro hle
    have hle' : ((c : ℝ) * (t.num : ℝ)) ^ 2 ≤
        (n : ℝ) * ((t.den : ℝ) * 1700) ^ 2 := by
      have : (c : ℝ) ^ 2 * (t.num : ℝ) ^ 2 ≤
          (n : ℝ) * 1700 ^ 2 * (t.den : ℝ) ^ 2 := by exact_mod_cast hle
      nlinarith [this]
    exact hle'
  · intro hle
    have hle' : (c : ℝ) ^ 2 * (t.num : ℝ) ^ 2 ≤
        (n : ℝ) * 1700 ^ 2 * (t.den : ℝ) ^ 2 := by
      nlinarith [hle]
    exact_mod_cast hle'

lemma ratEqSqrt_iff {c : ℤ} (hc : 0 < c) {t : ℚ} (ht : 0 < t) (n : ℕ) :
    ratEqSqrt c t n ↔ (c : ℝ) * (t : ℝ) / 1700 = Real.sqrt n := by
  unfold ratEqSqrt
  have hnum : 0 < t.num := Rat.num_pos.mpr ht
  have ht' : (0 : ℝ) < (t : ℝ) := by exact_mod_cast ht
  have hc' : (0 : ℝ) < (c : ℝ) := by exact_mod_cast hc
  have hden := den_pos_real t
  have hx0 : (0 : ℝ) ≤ (c : ℝ) * (t : ℝ) / 1700 := by positivity
  rw [and_iff_right (le_of_lt (mul_pos hc hnum))]
  constructor
  · intro heq
    have hsq : ((c : ℝ) * (t : ℝ) / 1700) ^ 2 = (n : ℝ) := by
      rw [rat_cast_def_real t]
      rw [show (c : ℝ) * ((t.num : ℝ) / (t.den : ℝ)) / 1700 =
          ((c : ℝ) * (t.num : ℝ)) / ((t.den : ℝ) * 1700) by ring]
      rw [div_pow, div_eq_iff (by positivity)]
      have heq' : (c : ℝ) ^ 2 * (t.num : ℝ) ^ 2 =
          (n : ℝ) * 1700 ^ 2 * (t.den : ℝ) ^ 2 := by exact_mod_cast heq
      nlinarith [heq']
    rw [← hsq, Real.sqrt_sq hx0]
  · intro heq
    have hsq : ((c : ℝ) * (t : ℝ) / 1700) ^ 2 = (n : ℝ) := by
      rw [heq, Real.sq_sqrt (by positivity)]
    have hsq' : (c : ℝ) ^ 2 * (t.num : ℝ) ^ 2 =
        (n : ℝ) * 1700 ^ 2 * (t.den : ℝ) ^ 2 := by
      rw [rat_cast_def_real t] at hsq
      rw [show (c : ℝ) * ((t.num : ℝ) / (t.den : ℝ)) / 1700 =
          ((c : ℝ) * (t.num : ℝ)) / ((t.den : ℝ) * 1700) by ring] at hsq
      rw [div_pow, div_eq_iff (by positivity)] at hsq
      nlinarith [hsq]
    exact_mod_cast hsq'

/-! ### The stored feather byte is the rounded feather value -/

lemma featherFloor_mem_iff {n : ℕ} {t : ℚ} (ht : 0 < t) (m : ℕ) :
    (ratLeSqrt (2 * (m : ℤ) + 1699) t n = true) ↔
      (2 * (m : ℝ) + 1699) * (t : ℝ) / 1700 ≤ Real.sqrt n := by
  have hc : (0 : ℤ) < 2 * (m : ℤ) + 1699 := by positivity
  rw [ratLeSqrt_iff hc ht n]
  have hcast : ((2 * (m : ℤ) + 1699 : ℤ) : ℝ) = 2 * (m : ℝ) + 1699 := by
    push_cast
    ring
  rw [hcast]

lemma featherByte_close {n : ℕ} {t : ℚ} (ht : 0 < t)
    (hlow : (t : ℝ) ≤ Real.sqrt n) (hhigh : Real.sqrt n < 1.3 * t) :
    |(featherByte n t : ℝ) - (Real.sqrt n - t) / ((t : ℝ) * 0.3) * 255| ≤ 1 / 2 ∧
      featherByte n t ≤ 255 := by
  have ht' : (0 : ℝ) < (t : ℝ) := by exact_mod_cast ht
  have hd0 : (0 : ℝ) ≤ Real.sqrt n := Real.sqrt_nonneg _
  have hFeq : (Real.sqrt n - t) / ((t : ℝ) * 0.3) * 255 =
      850 * Real.sqrt n / t - 850 := by
    field_simp
    ring
  have hhalf : 1700 * Real.sqrt n / (t : ℝ) = 2 * (850 * Real.sqrt n / t) := by
    ring
  have hF0 : 0 ≤ 850 * Real.sqrt n / (t : ℝ) - 850 := by
    rw [sub_nonneg, le_div_iff ht']
    nlinarith [hlow]
  have hF255 : 850 * Real.sqrt n / (t : ℝ) - 850 < 255 := by
    rw [sub_lt_iff_lt_add]
    rw [div_lt_iff ht']
    nlinarith [hhigh]
  have hP : ∀ m : ℕ, (ratLeSqrt (2 * (m : ℤ) + 1699) t n = true) ↔
      ((m : ℝ) ≤ (850 * Real.sqrt n / t - 850) + 1 / 2) := by
    intro m
    rw [featherFloor_mem_iff ht m, div_le_iff (by norm_num : (0 : ℝ) < 1700)]
    constructor
    · intro h
      have h2 : 2 * (m : ℝ) + 1699 ≤ 1700 * Real.sqrt n / t := by
        rw [le_div_iff ht']
        linarith
      linarith [hhalf ▸ h2]
    · intro h
      have h2 : 2 * (m : ℝ) + 1699 ≤ 1700 * Real.sqrt n / t := by
        rw [hhalf]
        linarith
      rw [le_div_iff ht'] at h2
      linarith
  have hP0 : ratLeSqrt (2 * ((0 : ℕ) : ℤ) + 1699) t n = true :=
    (hP 0).mpr (by push_cast; linarith)
  have hPm0 : ratLeSqrt (2 * (featherFloor n t : ℤ) + 1699) t n = true := by
    unfold featherFloor
    exact @Nat.findGreatest_spec 0
      (fun m => ratLeSqrt (2 * (m : ℤ) + 1699) t n = true) _ 256
      (Nat.zero_le 256) hP0
  have hm0F : (featherFloor n t : ℝ) ≤ (850 * Real.sqrt n / t - 850) + 1 / 2 :=
    (hP _).mp hPm0
  have hm0_256 : featherFloor n t ≤ 256 := by
    unfold featherFloor
    exact @Nat.findGreatest_le
      (fun m => ratLeSqrt (2 * (m : ℤ) + 1699) t n = true) _ 256
  have hm0255 : featherFloor n t ≤ 255 := by
    by_contra hcon
    push_neg at hcon
    have h256 : featherFloor n t = 256 := le_antisymm hm0_256 hcon
    rw [h256] at hm0F
    norm_num at hm0F
    linarith
  have hupper : (850 * Real.sqrt n / (t : ℝ) - 850) + 1 / 2 <
      (featherFloor n t : ℝ) + 1 := by
    by_contra hcon
    push_neg at hcon
    have hnotP : ¬ (ratLeSqrt (2 * ((featherFloor n t + 1 : ℕ) : ℤ) + 1699) t n
        = true) := by
      have hlt : featherFloor n t < featherFloor n t + 1 := Nat.lt_succ_self _
      have hle : featherFloor n t + 1 ≤ 256 := by omega
      unfold featherFloor at hlt hle ⊢
      exact @Nat.findGreatest_is_greatest _
        (fun m => ratLeSqrt (2 * (m : ℤ) + 1699) t n = true) _ 256 hlt hle
    exact hnotP ((hP (featherFloor n t + 1)).mpr (by push_cast; linarith))
  rw [hFeq]
  simp only [featherByte]
  split_ifs with htie
  · obtain ⟨heq, hodd⟩ := htie
    have hc : (0 : ℤ) < 2 * (featherFloor n t : ℤ) + 1699 := by positivity
    have heqR := (ratEqSqrt_iff hc ht n).mp heq
    have hone : 1 ≤ featherFloor n t := by omega
    have hex : (featherFloor n t : ℝ) = (850 * Real.sqrt n / t - 850) + 1 / 2 := by
      have h1 : (2 * (featherFloor n t : ℝ) + 1699) * t = Real.sqrt n * 1700 := by
        have hcast : ((2 * (featherFloor n t : ℤ) + 1699 : ℤ) : ℝ) =
            2 * (featherFloor n t : ℝ) + 1699 := by
          push_cast
          ring
        rw [hcast] at heqR
        have := heqR
        field_simp at this
        linarith
      have h2 : 2 * (featherFloor n t : ℝ) + 1699 = 1700 * Real.sqrt n / t := by
        rw [eq_div_iff (ne_of_gt ht')]
        linarith
      rw [hhalf] at h2
      linarith
    constructor
    · rw [Nat.cast_sub hone, Nat.cast_one]
      rw [abs_le]
      constructor <;> linarith [hex]
    · exact Nat.le_trans (Nat.sub_le _ _) hm0255
  · constructor
    · rw [abs_le]
      constructor <;> linarith [hm0F, hupper]
    · exact hm0255

/-! ### Claim C2: the chroma-key branch structure -/

/-- C2: per pixel, with `d` the Euclidean distance between the pixel's RGB
and the key color (the first conjunct identifies `distSq` with its square)
and tolerance positive: below `tolerance` the alpha becomes 0; inside the
feather band the alpha becomes the minimum of the prior alpha and the
feather value `((d - tolerance) / (tolerance * 0.3)) * 255` clamped to
`[0, 255]`, stored into the 8-bit channel (hence determined up to the
half-unit rounding of `featherByte`); otherwise the alpha is unchanged. -/
theorem chromaKey_feather_branches (img : Img) (bg : RGB) (t : ℚ) (ht : 0 < t)
    (i : ℕ) (hi : i < img.px.length) :
    ((distSq (img.pixelAt i) bg : ℝ) =
        (((img.pixelAt i).r : ℝ) - bg.r) ^ 2 +
          (((img.pixelAt i).g : ℝ) - bg.g) ^ 2 +
          (((img.pixelAt i).b : ℝ) - bg.b) ^ 2) ∧
      (Real.sqrt (distSq (img.pixelAt i) bg) < (t : ℝ) →
        (chromaPass img bg t).alphaAt i = 0) ∧
      ((t : ℝ) ≤ Real.sqrt (distSq (img.pixelAt i) bg) →
        Real.sqrt (distSq (img.pixelAt i) bg) < 1.3 * t →
        (chromaPass img bg t).alphaAt i =
            min (img.alphaAt i) (featherByte (distSq (img.pixelAt i) bg) t) ∧
          |((chromaPass img bg t).alphaAt i : ℝ) -
              min ((img.alphaAt i : ℕ) : ℝ)
                (max 0 (min 255
                  ((Real.sqrt (distSq (img.pixelAt i) bg) - t) /
                    ((t : ℝ) * 0.3) * 255)))| ≤ 1 / 2) ∧
      (1.3 * (t : ℝ) ≤ Real.sqrt (distSq (img.pixelAt i) bg) →
        (chromaPass img bg t).alphaAt i = img.alphaAt i) := by
  have ht' : (0 : ℝ) < (t : ℝ) := by exact_mod_cast ht
  have hpix : (chromaPass img bg t).alphaAt i =
      (chromaPixel bg t (img.pixelAt i)).a := by
    unfold Img.alphaAt
    rw [chromaPass_pixelAt bg t hi]
  have hb1 := branch1_iff t ht (distSq (img.pixelAt i) bg)
  have hb2 := branch2_iff t ht (distSq (img.pixelAt i) bg)
  refine ⟨distSq_cast _ _, ?_, ?_, ?_⟩
  · intro hd
    rw [hpix]
    simp only [chromaPixel]
    rw [if_pos (hb1.mpr hd)]
  · intro hd1 hd2
    have hcond1 : ¬ (0 < t.num ∧
        (distSq (img.pixelAt i) bg : ℤ) * t.den ^ 2 < t.num ^ 2) := by
      rw [hb1]
      exact not_lt.mpr hd1
    have hcond2 : 0 < t.num ∧
        (distSq (img.pixelAt i) bg : ℤ) * 100 * t.den ^ 2 < t.num ^ 2 * 169 :=
      hb2.mpr hd2
    have hmain : (chromaPass img bg t).alphaAt i =
        min (img.alphaAt i) (featherByte (distSq (img.pixelAt i) bg) t) := by
      rw [hpix]
      simp only [chromaPixel]
      rw [if_neg hcond1, if_pos hcond2]
      rfl
    refine ⟨hmain, ?_⟩
    obtain ⟨habs, _⟩ := featherByte_close ht hd1 hd2
    have hF0 : 0 ≤ (Real.sqrt (distSq (img.pixelAt i) bg) - t) /
        ((t : ℝ) * 0.3) * 255 := by
      apply mul_nonneg (div_nonneg (by linarith) (by positivity)) (by norm_num)
    have hF255 : (Real.sqrt (distSq (img.pixelAt i) bg) - t) /
        ((t : ℝ) * 0.3) * 255 < 255 := by
      have hq : (Real.sqrt (distSq (img.pixelAt i) bg) - t) / ((t : ℝ) * 0.3) < 1 := by
        rw [div_lt_one (by positivity)]
        nlinarith [hd2]
      nlinarith [hq, hF0]
    have hclamp : max 0 (min 255
        ((Real.sqrt (distSq (img.pixelAt i) bg) - t) / ((t : ℝ) * 0.3) * 255)) =
        (Real.sqrt (distSq (img.pixelAt i) bg) - t) / ((t : ℝ) * 0.3) * 255 := by
      rw [min_eq_right (le_of_lt hF255), max_eq_right hF0]
    rw [hmain, hclamp]
    have hcast : ((min (img.alphaAt i)
        (featherByte (distSq (img.pixelAt i) bg) t) : ℕ) : ℝ) =
        min ((img.alphaAt i : ℕ) : ℝ)
          ((featherByte (distSq (img.pixelAt i) bg) t : ℕ) : ℝ) := by
      push_cast
      rfl
    rw [hcast]
    rw [abs_le] at habs ⊢
    rcases le_total ((img.alphaAt i : ℕ) : ℝ)
        ((featherByte (distSq (img.pixelAt i) bg) t : ℕ) : ℝ) with hab | hab <;>
      rcases le_total ((img.alphaAt i : ℕ) : ℝ)
        ((Real.sqrt (distSq (img.pixelAt i) bg) - t) / ((t : ℝ) * 0.3) * 255)
        with haf | haf
    · rw [min_eq_left hab, min_eq_left haf, sub_self]
      constructor <;> norm_num
    · rw [min_eq_left hab, min_eq_right haf]
      constructor <;> linarith
    · rw [min_eq_right hab, min_eq_left haf]
      constructor <;> linarith
    · rw [min_eq_right hab, min_eq_right haf]
      exact habs
  · intro hd3
    have hcond1 : ¬ (0 < t.num ∧
        (distSq (img.pixelAt i) bg : ℤ) * t.den ^ 2 < t.num ^ 2) := by
      rw [hb1]
      push_neg
      nlinarith [hd3]
    have hcond2 : ¬ (0 < t.num ∧
        (distSq (img.pixelAt i) bg : ℤ) * 100 * t.den ^ 2 < t.num ^ 2 * 169) := by
      rw [hb2]
      exact not_lt.mpr hd3
    rw [hpix]
    simp only [chromaPixel]
    rw [if_neg hcond1, if_neg hcond2]
    rfl

/-- Witness for C2 at a concrete pixel and tolerance. -/
theorem chromaKey_feather_branches_witness :
    (0 : ℚ) < 50 ∧ 0 < tinyImg.px.length ∧
      (((distSq (tinyImg.pixelAt 0) ⟨0, 255, 0⟩ : ℝ) =
          (((tinyImg.pixelAt 0).r : ℝ) - (0 : ℕ)) ^ 2 +
            (((tinyImg.pixelAt 0).g : ℝ) - (255 : ℕ)) ^ 2 +
            (((tinyImg.pixelAt 0).b : ℝ) - (0 : ℕ)) ^ 2) ∧
        (Real.sqrt (distSq (tinyImg.pixelAt 0) ⟨0, 255, 0⟩) < ((50 : ℚ) : ℝ) →
          (chromaPass tinyImg ⟨0, 255, 0⟩ 50).alphaAt 0 = 0) ∧
        (((50 : ℚ) : ℝ) ≤ Real.sqrt (distSq (tinyImg.pixelAt 0) ⟨0, 255, 0⟩) →
          Real.sqrt (distSq (tinyImg.pixelAt 0) ⟨0, 255, 0⟩) < 1.3 * (50 : ℚ) →
          (chromaPass tinyImg ⟨0, 255, 0⟩ 50).alphaAt 0 =
              min (tinyImg.alphaAt 0)
                (featherByte (distSq (tinyImg.pixelAt 0) ⟨0, 255, 0⟩) 50) ∧
            |((chromaPass tinyImg ⟨0, 255, 0⟩ 50).alphaAt 0 : ℝ) -
                min ((tinyImg.alphaAt 0 : ℕ) : ℝ)
                  (max 0 (min 255
                    ((Real.sqrt (distSq (tinyImg.pixelAt 0) ⟨0, 255, 0⟩) -
                      (50 : ℚ)) / (((50 : ℚ) : ℝ) * 0.3) * 255)))| ≤ 1 / 2) ∧
        (1.3 * ((50 : ℚ) : ℝ) ≤ Real.sqrt (distSq (tinyImg.pixelAt 0) ⟨0, 255, 0⟩) →
          (chromaPass tinyImg ⟨0, 255, 0⟩ 50).alphaAt 0 = tinyImg.alphaAt 0)) :=
  ⟨by norm_num, by decide,
    chromaKey_feather_branches tinyImg ⟨0, 255, 0⟩ 50 (by norm_num) 0 (by decide)⟩

end VoicePixels
